import Mathlib

/-!
# Separate-chaining `unordered_map` (src/SeparateChaining.cpp)

A shallow embedding of the class template `unordered_map<KeyType, ValueType, Hash>`.

* `std::vector<Bucket> buckets` is a list of buckets, a bucket
  (`std::list<std::pair<const KeyType, ValueType>>`) a list of pairs.
* `Hash hash` is a function from keys to natural numbers (the `size_t` it returns).
* `size_t num_elements` is a natural number below `2^64`; `++` and `--` wrap.
* A `BucketIterator` is the bucket it walks and an offset from `begin()`;
  the offset of `end()` is the length of the bucket.
* `hash(key) % buckets.size()` with `buckets.size() == 0` is undefined behaviour
  (division by zero): every operation that evaluates it returns `none` there.
-/

namespace SeparateChaining

/-- Number of values of a 64-bit `size_t`. -/
def SIZE_T_MOD : Nat := 18446744073709551616

/-- The effect of `++n` on a `size_t`. -/
def size_t_inc (n : Nat) : Nat := (n + 1) % SIZE_T_MOD

/-- The effect of `--n` on a `size_t`: `n - 1`, and zero wraps around to `2^64 - 1`
(the value of `(n + 2^64 - 1) % 2^64`, see `size_t_dec_eq_mod`). -/
def size_t_dec (n : Nat) : Nat := if n = 0 then SIZE_T_MOD - 1 else n - 1

/-- Bucket type, `std::list<std::pair<const KeyType, ValueType>>`. -/
abbrev Bucket (K V : Type) := List (K × V)

/-- An iterator into one bucket: the index of the bucket in the bucket array and the
number of `++` steps from `begin()`. -/
structure BucketIterator where
  bucket : Nat
  offset : Nat
deriving DecidableEq

/-- The data members of the class: `buckets`, `hash`, `num_elements`. -/
structure unordered_map (K V : Type) where
  buckets : List (Bucket K V)
  hash : K → Nat
  num_elements : Nat

namespace unordered_map

variable {K V : Type}

/-- The element `buckets[i]` (the empty list stands in for an index outside the array;
no operation below reads one). -/
def bucket_at (m : unordered_map K V) (i : Nat) : Bucket K V := m.buckets.getD i []

/-- The iterator `buckets[i].end()`. -/
def end_of (m : unordered_map K V) (i : Nat) : BucketIterator := ⟨i, (m.bucket_at i).length⟩

/-- The expression `hash(key) % buckets.size()`; `none` when `buckets.size()` is zero. -/
def bucket_index (m : unordered_map K V) (key : K) : Option Nat :=
  if m.buckets.length = 0 then none else some (m.hash key % m.buckets.length)

/-- The `for` loop of `find_bucket` over one bucket: the offset of the first entry whose
key equals `key`, or the length of the bucket (the offset of `end()`) when there is none. -/
def scan [DecidableEq K] (key : K) : Bucket K V → Nat
  | [] => 0
  | e :: rest => if e.1 = key then 0 else scan key rest + 1

/-- Lines 18-36, `find_bucket`. -/
def find_bucket [DecidableEq K] (m : unordered_map K V) (key : K) : Option BucketIterator :=
  (m.bucket_index key).map fun i => ⟨i, scan key (m.bucket_at i)⟩

/-- The entry an iterator points at (`*it`); dereferencing `end()` gives `none`. -/
def entry_at (m : unordered_map K V) (it : BucketIterator) : Option (K × V) :=
  (m.bucket_at it.bucket)[it.offset]?

/-- The value `it->second`. -/
def value_at (m : unordered_map K V) (it : BucketIterator) : Option V :=
  (m.entry_at it).map Prod.snd

/-- The assignment `it->second = v` inside one bucket, `it` at offset `n`. -/
def assign_second (v : V) : Bucket K V → Nat → Bucket K V
  | [], _ => []
  | e :: rest, 0 => (e.1, v) :: rest
  | e :: rest, n + 1 => e :: assign_second v rest n

/-- Lines 39-40, the constructor: `num_buckets` empty buckets and a count of zero. The
limit `std::vector` puts on its length (`max_size`) is not part of the model. -/
def ctor (num_buckets : Nat) (hash_fn : K → Nat) : unordered_map K V :=
  { buckets := List.replicate num_buckets [], hash := hash_fn, num_elements := 0 }

/-- Lines 42-50, `operator[]`: the state afterwards and the iterator whose `second` the
returned reference names. -/
def operator_subscript [DecidableEq K] [Inhabited V] (m : unordered_map K V) (key : K) :
    Option (unordered_map K V × BucketIterator) :=
  (m.find_bucket key).bind fun it =>
  (m.bucket_index key).bind fun i =>
  if it = m.end_of i then
    let m1 : unordered_map K V :=
      { m with buckets := m.buckets.set i (m.bucket_at i ++ [(key, default)]) }
    let it1 : BucketIterator := ⟨i, (m1.bucket_at i).length - 1⟩
    some ({ m1 with num_elements := size_t_inc m1.num_elements }, it1)
  else
    some (m, it)

/-- Lines 52-61, `insert`. -/
def insert [DecidableEq K] (m : unordered_map K V) (item : K × V) :
    Option (unordered_map K V) :=
  (m.find_bucket item.1).bind fun it =>
  (m.bucket_index item.1).bind fun i =>
  if it = m.end_of i then
    some { m with
      buckets := m.buckets.set i (m.bucket_at i ++ [item])
      num_elements := size_t_inc m.num_elements }
  else
    some { m with
      buckets := m.buckets.set it.bucket (assign_second item.2 (m.bucket_at it.bucket) it.offset) }

/-- Lines 63-69, `erase`. -/
def erase [DecidableEq K] (m : unordered_map K V) (key : K) : Option (unordered_map K V) :=
  (m.find_bucket key).bind fun it =>
  (m.bucket_index key).bind fun i =>
  if it ≠ m.end_of i then
    some { m with
      buckets := m.buckets.set i ((m.bucket_at i).eraseIdx it.offset)
      num_elements := size_t_dec m.num_elements }
  else
    some m

/-- Lines 71-73, `size`. -/
def size (m : unordered_map K V) : Nat := m.num_elements

/-- Lines 75-78, `clear`: `buckets.clear()` empties the vector of buckets. -/
def clear (m : unordered_map K V) : unordered_map K V :=
  { m with buckets := [], num_elements := 0 }

/-- Lines 80-82, `empty`. -/
def empty (m : unordered_map K V) : Bool := m.num_elements == 0

/-- Lines 84-86, `count`. -/
def count [DecidableEq K] (m : unordered_map K V) (key : K) : Option Nat :=
  (m.find_bucket key).bind fun it =>
  (m.bucket_index key).map fun i =>
  if it = m.end_of i then 0 else 1

/-- Lines 88-94, `find`. -/
def find [DecidableEq K] (m : unordered_map K V) (key : K) : Option BucketIterator :=
  m.find_bucket key

/-- The value `find(key)->second`; `none` when `find` is undefined or returns `end()`. -/
def find_value [DecidableEq K] (m : unordered_map K V) (key : K) : Option V :=
  (m.find key).bind m.value_at

/-- Sum of the sizes of all buckets. -/
def total (m : unordered_map K V) : Nat := (m.buckets.map List.length).sum

/-- The distinct stored keys `k` with `count(k) = 1`. -/
def live_keys [DecidableEq K] (m : unordered_map K V) : List K :=
  ((m.buckets.flatten.map Prod.fst).filter fun k => m.count k = some 1).dedup

end unordered_map

/-- One call of a mutating member function. -/
inductive Op (K V : Type) where
  | subscript (key : K)
  | insert (item : K × V)
  | erase (key : K)

/-- The state after one call; `none` when the call is undefined. -/
def step {K V : Type} [DecidableEq K] [Inhabited V] (m : unordered_map K V) :
    Op K V → Option (unordered_map K V)
  | .subscript key => (m.operator_subscript key).map Prod.fst
  | .insert item => m.insert item
  | .erase key => m.erase key

/-- The state after a sequence of calls, first call first. -/
def run {K V : Type} [DecidableEq K] [Inhabited V] (m : unordered_map K V) :
    List (Op K V) → Option (unordered_map K V)
  | [] => some m
  | op :: rest => (step m op).bind fun m1 => run m1 rest

/-- A state some sequence of `operator[]`, `insert` and `erase` calls produces from a map
constructed with at least one bucket. -/
def Reachable {K V : Type} [DecidableEq K] [Inhabited V] (m : unordered_map K V) : Prop :=
  ∃ (n : Nat) (h : K → Nat) (ops : List (Op K V)), 0 < n ∧ run (unordered_map.ctor n h) ops = some m

/-- The keys of a bucket, front to back. -/
def keys {K V : Type} (b : Bucket K V) : List K := b.map Prod.fst

/-- The value `it->second` read at the iterator the `find_bucket` loop stops at in one
bucket; `none` when the loop runs to `end()`. -/
def lookup {K V : Type} [DecidableEq K] (key : K) (b : Bucket K V) : Option V :=
  (b[unordered_map.scan key b]?).map Prod.snd

/-- The hash of the concrete scenario, `key mod 4`. -/
def mod4 (k : Nat) : Nat := k % 4

/-- The calls of the concrete scenario: keys 1, 5 and 9 inserted in this order. -/
def scenario_ops : List (Op Nat Int) := [.insert (1, 10), .insert (5, 50), .insert (9, 90)]

/-- The state of the concrete scenario: four buckets, hash `key mod 4`, and the keys
1, 5 and 9 stored, all three in bucket 1. -/
def scenario_map : unordered_map Nat Int :=
  { buckets := [[], [(1, 10), (5, 50), (9, 90)], [], []], hash := mod4, num_elements := 3 }

/-- A longer run on four buckets that mixes `insert`, `operator[]` and `erase`, with
repeated keys and the erase of a key that is not stored. -/
def mixed_ops : List (Op Nat Int) :=
  [.insert (1, 10), .insert (5, 50), .subscript 9, .erase 5, .erase 7, .insert (1, 11),
   .subscript 9, .subscript 2]

/-- A stand-in for `std::hash<std::string>`, whose values the source leaves to the
standard library: the length of the string. -/
def string_hash (s : String) : Nat := s.length

/-- A freshly constructed map from strings to numbers with the default bucket count
`num_buckets = 100`. The `float` values are taken as rationals; the value-initialised
`float()` is `0`. -/
def fresh_string_map : unordered_map String ℚ := unordered_map.ctor 100 string_hash

/-- Pairs with pairwise distinct keys, two of them (2 and 6) in one bucket of four. -/
def round_trip_items : List (Nat × Int) := [(6, 60), (3, 30), (2, 20), (8, 80)]

/-- The representation invariant of the data model: at least one bucket, every entry in
the bucket its hash selects, no key twice in a bucket, and the counter equal to the
number of stored entries as a `size_t`. -/
structure Inv {K V : Type} (m : unordered_map K V) : Prop where
  pos : 0 < m.buckets.length
  placed : ∀ i, ∀ k ∈ keys (m.bucket_at i), m.hash k % m.buckets.length = i
  nodup : ∀ i, (keys (m.bucket_at i)).Nodup
  counted : m.num_elements = m.total % SIZE_T_MOD

/-- The key a call is made with. -/
def Op.key {K V : Type} : Op K V → K
  | .subscript key => key
  | .insert item => item.1
  | .erase key => key

/-- One call of a mutating member function, `clear()` included. -/
inductive Call (K V : Type) where
  | op (o : Op K V)
  | clear

/-- The state after one call, `clear()` included; `none` when the call is undefined. -/
def step_call {K V : Type} [DecidableEq K] [Inhabited V] (m : unordered_map K V) :
    Call K V → Option (unordered_map K V)
  | .op o => step m o
  | .clear => some m.clear

/-- The state after a sequence of calls that may contain `clear()`, first call first. -/
def run_calls {K V : Type} [DecidableEq K] [Inhabited V] (m : unordered_map K V) :
    List (Call K V) → Option (unordered_map K V)
  | [] => some m
  | c :: rest => (step_call m c).bind fun m1 => run_calls m1 rest

/-- An abstract finite map: a key is bound to at most one value. -/
abbrev AbstractMap (K V : Type) := K → Option V

/-- The abstract map with no key bound. -/
def abstract_empty {K V : Type} : AbstractMap K V := fun _ => none

/-- Abstract update: bind `k` to `v`, every other key as before. -/
def abstract_update {K V : Type} [DecidableEq K] (f : AbstractMap K V) (k : K) (v : V) :
    AbstractMap K V :=
  fun k1 => if k1 = k then some v else f k1

/-- Abstract removal: unbind `k`, every other key as before. -/
def abstract_remove {K V : Type} [DecidableEq K] (f : AbstractMap K V) (k : K) :
    AbstractMap K V :=
  fun k1 => if k1 = k then none else f k1

/-- Abstract lookup with default insert: a key that is bound stays as it is, a key that
is not bound gets the default value. -/
def abstract_lookup_default {K V : Type} [DecidableEq K] [Inhabited V] (f : AbstractMap K V)
    (k : K) : AbstractMap K V :=
  if (f k).isSome then f else abstract_update f k default

/-- What one call does to the abstract map. -/
def abstract_step {K V : Type} [DecidableEq K] [Inhabited V] (f : AbstractMap K V) :
    Op K V → AbstractMap K V
  | .subscript key => abstract_lookup_default f key
  | .insert item => abstract_update f item.1 item.2
  | .erase key => abstract_remove f key

/-- What a sequence of calls does to the abstract map, first call first. -/
def abstract_run {K V : Type} [DecidableEq K] [Inhabited V] (f : AbstractMap K V) :
    List (Op K V) → AbstractMap K V
  | [] => f
  | op :: rest => abstract_run (abstract_step f op) rest

/-- The abstraction of a state: `k` is bound to the value `find(k)` reads, and to nothing
when `find(k)` returns `end()`. -/
def abstraction {K V : Type} [DecidableEq K] (m : unordered_map K V) : AbstractMap K V :=
  fun k => m.find_value k

/-- The state `mixed_ops` produces on four buckets with hash `key mod 4`. -/
def mixed_map : unordered_map Nat Int :=
  { buckets := [[], [(1, 11), (9, 0)], [(2, 0)], []], hash := mod4, num_elements := 3 }

/-- A hash that sends every key to bucket 0. -/
def constant_hash (_ : Nat) : Nat := 0

/-- Keys erased in the erase round trip: every key of `round_trip_items`, in another
order, one of them twice, and a key that was never inserted. -/
def round_trip_erases : List Nat := [2, 8, 6, 2, 3, 11]

/-- A run that contains `clear()`: three inserts, an erase, then `clear()` twice. -/
def calls_with_clear : List (Call Nat Int) :=
  [.op (.insert (1, 10)), .op (.insert (5, 50)), .op (.subscript 9), .op (.erase 5), .clear,
   .clear]

end SeparateChaining

/-!
# The ordered variant (src/RedBlack.cpp)

The class keeps a `std::map<KeyType, ValueType, Compare>` and a `size_t num_elements`.
The standard container is taken by its contract: a list of entries with pairwise distinct
keys (the order of iteration plays no part below).
-/

namespace RedBlack

/-- The contents of a `std::map`. -/
abbrev std_map (K V : Type) := List (K × V)

/-- `std::map::count`. -/
def std_map.count {K V : Type} [DecidableEq K] (s : std_map K V) (key : K) : Nat :=
  if key ∈ s.map Prod.fst then 1 else 0

/-- `std::map::insert(item)`: a key that is present keeps its entry. -/
def std_map.insert {K V : Type} [DecidableEq K] (s : std_map K V) (item : K × V) :
    std_map K V :=
  if item.1 ∈ s.map Prod.fst then s else s ++ [item]

/-- `std::map::erase(key)`. -/
def std_map.erase {K V : Type} [DecidableEq K] (s : std_map K V) (key : K) : std_map K V :=
  s.filter fun e => e.1 ≠ key

/-- The data members of the class: `map`, `num_elements`. -/
structure unordered_map (K V : Type) where
  map : std_map K V
  num_elements : Nat

namespace unordered_map

variable {K V : Type}

/-- Lines 18-19, the constructor. -/
def ctor : unordered_map K V := { map := [], num_elements := 0 }

/-- Lines 21-23, `operator[]`: `map[key]` inserts a default value for a key that is not
present; the counter is not touched. -/
def operator_subscript [DecidableEq K] [Inhabited V] (m : unordered_map K V) (key : K) :
    unordered_map K V :=
  { m with map := m.map.insert (key, default) }

/-- Lines 25-28, `insert`. -/
def insert [DecidableEq K] (m : unordered_map K V) (item : K × V) : unordered_map K V :=
  { map := m.map.insert item, num_elements := SeparateChaining.size_t_inc m.num_elements }

/-- Lines 30-33, `erase`. -/
def erase [DecidableEq K] (m : unordered_map K V) (key : K) : unordered_map K V :=
  { map := m.map.erase key, num_elements := SeparateChaining.size_t_dec m.num_elements }

/-- Lines 35-37, `size`. -/
def size (m : unordered_map K V) : Nat := m.num_elements

/-- Lines 48-50, `count`. -/
def count [DecidableEq K] (m : unordered_map K V) (key : K) : Nat := m.map.count key

/-- The ordered variant after `insert((1, 10))` on a fresh map: one entry, counter 1. -/
def one_entry_map : unordered_map Nat Int := (ctor : unordered_map Nat Int).insert (1, 10)

end unordered_map

end RedBlack


/-! ## Lemmas on one bucket -/

namespace SeparateChaining

open unordered_map

variable {K V : Type}

theorem scan_eq_indexOf [DecidableEq K] (key : K) (b : Bucket K V) :
    scan key b = (keys b).indexOf key := by
  induction b with
  | nil => rfl
  | cons e rest ih =>
    by_cases h : e.1 = key
    · simp [scan, keys, h]
    · simp [scan, keys, h, List.indexOf_cons_ne, ih]

theorem scan_le_length [DecidableEq K] (key : K) (b : Bucket K V) : scan key b ≤ b.length := by
  rw [scan_eq_indexOf]
  simpa [keys] using (List.indexOf_le_length : (keys b).indexOf key ≤ (keys b).length)

theorem scan_eq_length_iff [DecidableEq K] (key : K) (b : Bucket K V) :
    scan key b = b.length ↔ key ∉ keys b := by
  rw [scan_eq_indexOf]
  simpa [keys] using (List.indexOf_eq_length : (keys b).indexOf key = (keys b).length ↔ _)

theorem scan_lt_length_iff [DecidableEq K] (key : K) (b : Bucket K V) :
    scan key b < b.length ↔ key ∈ keys b := by
  rw [scan_eq_indexOf]
  simpa [keys] using (List.indexOf_lt_length : (keys b).indexOf key < (keys b).length ↔ _)

theorem scan_append_of_not_mem [DecidableEq K] {key : K} {b : Bucket K V} (h : key ∉ keys b)
    (v : V) : scan key (b ++ [(key, v)]) = b.length := by
  induction b with
  | nil => simp [scan]
  | cons e rest ih =>
    have h1 : e.1 ≠ key := fun h2 => h (by simp [keys, ← h2])
    have h3 : key ∉ keys rest := fun h2 => h (by simp only [keys] at h2 ⊢; simp [h2])
    simp [scan, h1, ih h3]

theorem scan_append_of_mem [DecidableEq K] {key : K} {b : Bucket K V} (h : key ∈ keys b)
    (c : Bucket K V) : scan key (b ++ c) = scan key b := by
  have hsplit : keys (b ++ c) = keys b ++ keys c := by simp [keys]
  rw [scan_eq_indexOf, scan_eq_indexOf, hsplit]
  exact List.indexOf_append_of_mem h

theorem fst_getElem_scan [DecidableEq K] {key : K} {b : Bucket K V} (h : key ∈ keys b) :
    ∃ v, b[scan key b]? = some (key, v) := by
  induction b with
  | nil => simp [keys] at h
  | cons e rest ih =>
    by_cases h1 : e.1 = key
    · subst h1
      exact ⟨e.2, by simp [scan]⟩
    · have h2 : key ∈ keys rest := by
        simp only [keys, List.map_cons, List.mem_cons] at h ⊢
        rcases h with h | h
        · exact absurd h.symm h1
        · exact h
      obtain ⟨v, hv⟩ := ih h2
      exact ⟨v, by simp [scan, h1, hv]⟩

theorem keys_eraseIdx_scan [DecidableEq K] (key : K) (b : Bucket K V) :
    keys (b.eraseIdx (scan key b)) = (keys b).erase key := by
  induction b with
  | nil => simp [scan, keys]
  | cons e rest ih =>
    by_cases h1 : e.1 = key
    · simp [scan, keys, h1]
    · simp only [keys] at ih
      simp [scan, keys, h1, ih, List.erase_cons_tail]

theorem keys_assign_second (v : V) (b : Bucket K V) (n : Nat) :
    keys (assign_second v b n) = keys b := by
  induction b generalizing n with
  | nil => simp [assign_second]
  | cons e rest ih =>
    cases n with
    | zero => simp [assign_second, keys]
    | succ n =>
      simp only [keys] at ih
      simp [assign_second, keys, ih]

theorem length_assign_second (v : V) (b : Bucket K V) (n : Nat) :
    (assign_second v b n).length = b.length := by
  simpa [keys] using congrArg List.length (keys_assign_second v b n)

theorem getElem?_assign_second (v : V) (b : Bucket K V) (n j : Nat) :
    (assign_second v b n)[j]? = if j = n then b[j]?.map (fun e => (e.1, v)) else b[j]? := by
  induction b generalizing n j with
  | nil => simp [assign_second]
  | cons e rest ih =>
    cases n with
    | zero =>
      cases j with
      | zero => simp [assign_second]
      | succ j => simp [assign_second]
    | succ n =>
      cases j with
      | zero => simp [assign_second]
      | succ j => simp [assign_second, ih]

end SeparateChaining

/-! ## Lemmas on the bucket array -/

namespace SeparateChaining

open unordered_map

variable {K V : Type}

theorem getD_set_self {l : List (Bucket K V)} {i : Nat} (h : i < l.length) (b : Bucket K V) :
    (l.set i b).getD i [] = b := by
  simp [List.getD_eq_getElem?_getD, List.getElem?_set, h]

theorem getD_set_ne {l : List (Bucket K V)} {i j : Nat} (h : i ≠ j) (b : Bucket K V) :
    (l.set i b).getD j [] = l.getD j [] := by
  simp [List.getD_eq_getElem?_getD, List.getElem?_set, h]

theorem sum_length_set {l : List (Bucket K V)} {i : Nat} (h : i < l.length) (b : Bucket K V) :
    ((l.set i b).map List.length).sum + (l.getD i []).length
      = (l.map List.length).sum + b.length := by
  induction l generalizing i with
  | nil => simp at h
  | cons a rest ih =>
    cases i with
    | zero => simp; omega
    | succ i =>
      have h1 : i < rest.length := by simpa using h
      have := ih h1
      simp only [List.set_cons_succ, List.map_cons, List.sum_cons, List.getD_cons_succ]
      omega

theorem bucket_index_eq {m : unordered_map K V} (h : 0 < m.buckets.length) (key : K) :
    m.bucket_index key = some (m.hash key % m.buckets.length) := by
  simp [bucket_index, Nat.ne_of_gt h]

theorem bucket_index_lt {m : unordered_map K V} (h : 0 < m.buckets.length) (key : K) :
    m.hash key % m.buckets.length < m.buckets.length := Nat.mod_lt _ h

theorem find_bucket_eq [DecidableEq K] {m : unordered_map K V} (h : 0 < m.buckets.length)
    (key : K) :
    m.find_bucket key = some ⟨m.hash key % m.buckets.length,
      scan key (m.bucket_at (m.hash key % m.buckets.length))⟩ := by
  simp [find_bucket, bucket_index_eq h]

theorem iterator_eq_end_iff [DecidableEq K] (m : unordered_map K V) (i : Nat) (key : K) :
    (⟨i, scan key (m.bucket_at i)⟩ : BucketIterator) = m.end_of i
      ↔ key ∉ keys (m.bucket_at i) := by
  simp [end_of, scan_eq_length_iff]

theorem count_eq [DecidableEq K] {m : unordered_map K V} (h : 0 < m.buckets.length) (key : K) :
    m.count key
      = some (if key ∈ keys (m.bucket_at (m.hash key % m.buckets.length)) then 1 else 0) := by
  by_cases hk : key ∈ keys (m.bucket_at (m.hash key % m.buckets.length))
  · simp [count, find_bucket_eq h, bucket_index_eq h, iterator_eq_end_iff, hk]
  · simp [count, find_bucket_eq h, bucket_index_eq h, iterator_eq_end_iff, hk]

theorem count_eq_one_iff [DecidableEq K] {m : unordered_map K V} (h : 0 < m.buckets.length)
    (key : K) :
    m.count key = some 1 ↔ key ∈ keys (m.bucket_at (m.hash key % m.buckets.length)) := by
  rw [count_eq h]
  by_cases hk : key ∈ keys (m.bucket_at (m.hash key % m.buckets.length)) <;> simp [hk]

theorem count_eq_zero_iff [DecidableEq K] {m : unordered_map K V} (h : 0 < m.buckets.length)
    (key : K) :
    m.count key = some 0 ↔ key ∉ keys (m.bucket_at (m.hash key % m.buckets.length)) := by
  rw [count_eq h]
  by_cases hk : key ∈ keys (m.bucket_at (m.hash key % m.buckets.length)) <;> simp [hk]

theorem length_pos_of_count [DecidableEq K] {m : unordered_map K V} {key : K} {c : Nat}
    (h : m.count key = some c) : 0 < m.buckets.length := by
  rcases Nat.eq_zero_or_pos m.buckets.length with h0 | h0
  · simp [count, find_bucket, bucket_index, h0] at h
  · exact h0

theorem erase_eq [DecidableEq K] {m : unordered_map K V} (h : 0 < m.buckets.length) (key : K) :
    m.erase key = some
      (if key ∈ keys (m.bucket_at (m.hash key % m.buckets.length)) then
        { m with
          buckets := m.buckets.set (m.hash key % m.buckets.length)
            ((m.bucket_at (m.hash key % m.buckets.length)).eraseIdx
              (scan key (m.bucket_at (m.hash key % m.buckets.length))))
          num_elements := size_t_dec m.num_elements }
      else m) := by
  by_cases hk : key ∈ keys (m.bucket_at (m.hash key % m.buckets.length))
  · simp [erase, find_bucket_eq h, bucket_index_eq h, iterator_eq_end_iff, hk]
  · simp [erase, find_bucket_eq h, bucket_index_eq h, iterator_eq_end_iff, hk]

theorem insert_eq [DecidableEq K] {m : unordered_map K V} (h : 0 < m.buckets.length)
    (item : K × V) :
    m.insert item = some
      (if item.1 ∈ keys (m.bucket_at (m.hash item.1 % m.buckets.length)) then
        { m with
          buckets := m.buckets.set (m.hash item.1 % m.buckets.length)
            (assign_second item.2 (m.bucket_at (m.hash item.1 % m.buckets.length))
              (scan item.1 (m.bucket_at (m.hash item.1 % m.buckets.length)))) }
      else
        { m with
          buckets := m.buckets.set (m.hash item.1 % m.buckets.length)
            (m.bucket_at (m.hash item.1 % m.buckets.length) ++ [item])
          num_elements := size_t_inc m.num_elements }) := by
  by_cases hk : item.1 ∈ keys (m.bucket_at (m.hash item.1 % m.buckets.length))
  · simp [unordered_map.insert, find_bucket_eq h, bucket_index_eq h, iterator_eq_end_iff, hk]
  · simp [unordered_map.insert, find_bucket_eq h, bucket_index_eq h, iterator_eq_end_iff, hk]

theorem operator_subscript_eq [DecidableEq K] [Inhabited V] {m : unordered_map K V}
    (h : 0 < m.buckets.length) (key : K) :
    m.operator_subscript key = some
      (if key ∈ keys (m.bucket_at (m.hash key % m.buckets.length)) then
        (m, ⟨m.hash key % m.buckets.length,
          scan key (m.bucket_at (m.hash key % m.buckets.length))⟩)
      else
        ({ m with
          buckets := m.buckets.set (m.hash key % m.buckets.length)
            (m.bucket_at (m.hash key % m.buckets.length) ++ [(key, default)])
          num_elements := size_t_inc m.num_elements },
         ⟨m.hash key % m.buckets.length,
          (m.bucket_at (m.hash key % m.buckets.length)).length⟩)) := by
  by_cases hk : key ∈ keys (m.bucket_at (m.hash key % m.buckets.length))
  · simp [operator_subscript, find_bucket_eq h, bucket_index_eq h, iterator_eq_end_iff, hk]
  · have hset := getD_set_self (bucket_index_lt h key)
      (m.bucket_at (m.hash key % m.buckets.length) ++ [(key, default)])
    simp only [operator_subscript, find_bucket_eq h, bucket_index_eq h, Option.some_bind,
      iterator_eq_end_iff, hk, not_false_eq_true, if_true, if_false]
    simp only [bucket_at] at hset ⊢
    rw [hset]
    simp

end SeparateChaining

/-! ## The representation invariant -/

namespace SeparateChaining

open unordered_map

variable {K V : Type}

theorem size_t_inc_mod (t : Nat) : size_t_inc (t % SIZE_T_MOD) = (t + 1) % SIZE_T_MOD := by
  simp only [size_t_inc, SIZE_T_MOD]
  omega

theorem size_t_dec_eq_mod {n : Nat} (h : n < SIZE_T_MOD) :
    size_t_dec n = (n + SIZE_T_MOD - 1) % SIZE_T_MOD := by
  simp only [size_t_dec, SIZE_T_MOD] at h ⊢
  split <;> omega

theorem size_t_dec_mod {t : Nat} (h : 0 < t) :
    size_t_dec (t % SIZE_T_MOD) = (t - 1) % SIZE_T_MOD := by
  simp only [size_t_dec, SIZE_T_MOD]
  split <;> omega

theorem bucket_at_le_total (m : unordered_map K V) {i : Nat} (hi : i < m.buckets.length) :
    (m.bucket_at i).length ≤ m.total := by
  have := sum_length_set hi ([] : Bucket K V)
  simp only [bucket_at, total, List.length_nil] at this ⊢
  omega

theorem ctor_inv {n : Nat} (hn : 0 < n) (h : K → Nat) : Inv (ctor n h : unordered_map K V) where
  pos := by simpa [ctor] using hn
  placed := by
    intro i k hk
    by_cases hi : i < n <;> simp [ctor, bucket_at, keys, List.getD_eq_getElem?_getD, hi] at hk
  nodup := by
    intro i
    by_cases hi : i < n <;> simp [ctor, bucket_at, keys, List.getD_eq_getElem?_getD, hi]
  counted := by simp [ctor, total, SIZE_T_MOD]

theorem Inv.set_bucket {m : unordered_map K V} (hm : Inv m) {i : Nat}
    (hi : i < m.buckets.length) {b : Bucket K V} {c : Nat}
    (hplaced : ∀ k ∈ keys b, m.hash k % m.buckets.length = i)
    (hnodup : (keys b).Nodup)
    (hcount : c = ((m.buckets.set i b).map List.length).sum % SIZE_T_MOD) :
    Inv { buckets := m.buckets.set i b, hash := m.hash, num_elements := c } where
  pos := by simpa using hm.pos
  placed := by
    intro j k hk
    simp only [bucket_at, List.length_set] at hk ⊢
    by_cases hj : i = j
    · subst hj
      rw [getD_set_self hi] at hk
      exact hplaced k hk
    · rw [getD_set_ne hj] at hk
      exact hm.placed j k hk
  nodup := by
    intro j
    simp only [bucket_at]
    by_cases hj : i = j
    · subst hj
      rw [getD_set_self hi]
      exact hnodup
    · rw [getD_set_ne hj]
      exact hm.nodup j
  counted := hcount

theorem insert_inv [DecidableEq K] {m m1 : unordered_map K V} (hm : Inv m) {item : K × V}
    (h : m.insert item = some m1) : Inv m1 := by
  rw [insert_eq hm.pos] at h
  have hi := bucket_index_lt hm.pos item.1
  have hsum := fun b => sum_length_set hi b
  have hcnt := hm.counted
  simp only [total] at hcnt
  split at h
  · rename_i hk
    cases h
    refine hm.set_bucket hi ?_ ?_ ?_
    · intro k hk1
      rw [keys_assign_second] at hk1
      exact hm.placed _ k hk1
    · rw [keys_assign_second]
      exact hm.nodup _
    · have := hsum (assign_second item.2 (m.bucket_at (m.hash item.1 % m.buckets.length))
        (scan item.1 (m.bucket_at (m.hash item.1 % m.buckets.length))))
      rw [length_assign_second] at this
      simp only [bucket_at] at this ⊢
      rw [hcnt]
      congr 1
      omega
  · rename_i hk
    cases h
    refine hm.set_bucket hi ?_ ?_ ?_
    · intro k hk1
      simp only [keys, List.map_append, List.map_cons, List.map_nil, List.mem_append,
        List.mem_singleton] at hk1
      rcases hk1 with hk1 | hk1
      · exact hm.placed _ k hk1
      · rw [hk1]
    · simp only [keys, List.map_append, List.map_cons, List.map_nil]
      apply List.Nodup.append (hm.nodup _) (List.nodup_singleton _)
      intro k hk1 hk2
      rw [List.mem_singleton] at hk2
      exact hk (hk2 ▸ hk1)
    · have := hsum (m.bucket_at (m.hash item.1 % m.buckets.length) ++ [item])
      simp only [bucket_at, List.length_append, List.length_singleton] at this
      rw [hcnt, size_t_inc_mod]
      congr 1
      simp only [bucket_at]
      omega

theorem operator_subscript_inv [DecidableEq K] [Inhabited V] {m m1 : unordered_map K V}
    (hm : Inv m) {key : K} {it : BucketIterator}
    (h : m.operator_subscript key = some (m1, it)) : Inv m1 := by
  rw [operator_subscript_eq hm.pos] at h
  split at h
  · cases h
    exact hm
  · rename_i hk
    have hins : m.insert (key, default) = some m1 := by
      rw [insert_eq hm.pos]
      simp only [hk, if_false]
      cases h
      rfl
    exact insert_inv hm hins

theorem erase_inv [DecidableEq K] {m m1 : unordered_map K V} (hm : Inv m) {key : K}
    (h : m.erase key = some m1) : Inv m1 := by
  rw [erase_eq hm.pos] at h
  have hi := bucket_index_lt hm.pos key
  have hcnt := hm.counted
  split at h
  · rename_i hk
    cases h
    refine hm.set_bucket hi ?_ ?_ ?_
    · intro k hk1
      rw [keys_eraseIdx_scan] at hk1
      exact hm.placed _ k (List.mem_of_mem_erase hk1)
    · rw [keys_eraseIdx_scan]
      exact (hm.nodup _).erase key
    · have hlt := (scan_lt_length_iff key _).2 hk
      have := sum_length_set hi
        ((m.bucket_at (m.hash key % m.buckets.length)).eraseIdx
          (scan key (m.bucket_at (m.hash key % m.buckets.length))))
      rw [List.length_eraseIdx_of_lt hlt] at this
      have hle := bucket_at_le_total m hi
      simp only [bucket_at, total] at this hle hlt hcnt ⊢
      rw [hcnt, size_t_dec_mod (by omega)]
      congr 1
      omega
  · cases h
    exact hm

theorem step_inv [DecidableEq K] [Inhabited V] {m m1 : unordered_map K V} (hm : Inv m)
    {op : Op K V} (h : step m op = some m1) : Inv m1 := by
  cases op with
  | subscript key =>
    simp only [step] at h
    cases hr : m.operator_subscript key with
    | none => simp [hr] at h
    | some r =>
      obtain ⟨m2, it⟩ := r
      rw [hr] at h
      simp only [Option.map_some', Option.some.injEq] at h
      subst h
      exact operator_subscript_inv hm hr
  | insert item => exact insert_inv hm h
  | erase key => exact erase_inv hm h

theorem step_defined [DecidableEq K] [Inhabited V] {m : unordered_map K V}
    (h : 0 < m.buckets.length) (op : Op K V) : ∃ m1, step m op = some m1 := by
  cases op with
  | subscript key => simp [step, operator_subscript_eq h]
  | insert item => simp [step, insert_eq h]
  | erase key => simp [step, erase_eq h]

end SeparateChaining

/-! ## Stored keys and sequences of calls -/

namespace SeparateChaining

open unordered_map

variable {K V : Type}

theorem bucket_at_eq_getElem (m : unordered_map K V) {i : Nat} (hi : i < m.buckets.length) :
    m.bucket_at i = m.buckets[i] := by
  simp [bucket_at, List.getD_eq_getElem?_getD, hi]

theorem mem_stored_iff (m : unordered_map K V) (k : K) :
    k ∈ m.buckets.flatten.map Prod.fst
      ↔ ∃ i, i < m.buckets.length ∧ k ∈ keys (m.bucket_at i) := by
  constructor
  · intro h
    obtain ⟨e, he, hek⟩ := List.mem_map.1 h
    obtain ⟨b, hb, heb⟩ := List.mem_flatten.1 he
    obtain ⟨i, hi, hib⟩ := List.mem_iff_getElem.1 hb
    refine ⟨i, hi, ?_⟩
    rw [bucket_at_eq_getElem m hi, hib]
    exact List.mem_map.2 ⟨e, heb, hek⟩
  · rintro ⟨i, hi, hk⟩
    rw [bucket_at_eq_getElem m hi] at hk
    obtain ⟨e, he, hek⟩ := List.mem_map.1 hk
    exact List.mem_map.2 ⟨e, List.mem_flatten.2 ⟨_, List.getElem_mem hi, he⟩, hek⟩

theorem mem_live_keys_iff [DecidableEq K] (m : unordered_map K V) (k : K) :
    k ∈ m.live_keys ↔ m.count k = some 1 := by
  simp only [live_keys, List.mem_dedup, List.mem_filter, decide_eq_true_eq]
  constructor
  · exact fun h => h.2
  · intro h
    have hpos := length_pos_of_count h
    exact ⟨(mem_stored_iff m k).2 ⟨_, bucket_index_lt hpos k, (count_eq_one_iff hpos k).1 h⟩, h⟩

theorem nodup_live_keys [DecidableEq K] (m : unordered_map K V) : m.live_keys.Nodup :=
  List.nodup_dedup _

theorem Inv.nodup_stored {m : unordered_map K V} (hm : Inv m) :
    (m.buckets.flatten.map Prod.fst).Nodup := by
  rw [List.map_flatten, List.nodup_flatten]
  constructor
  · intro l hl
    obtain ⟨b, hb, rfl⟩ := List.mem_map.1 hl
    obtain ⟨i, hi, rfl⟩ := List.mem_iff_getElem.1 hb
    have := hm.nodup i
    rwa [bucket_at_eq_getElem m hi] at this
  · rw [List.pairwise_iff_getElem]
    intro i j hi hj hij
    simp only [List.length_map] at hi hj
    simp only [List.getElem_map]
    intro k hki hkj
    have h1 := hm.placed i k (by rw [bucket_at_eq_getElem m hi]; exact hki)
    have h2 := hm.placed j k (by rw [bucket_at_eq_getElem m hj]; exact hkj)
    omega

theorem Inv.live_keys_eq [DecidableEq K] {m : unordered_map K V} (hm : Inv m) :
    m.live_keys = m.buckets.flatten.map Prod.fst := by
  have hfilter : (m.buckets.flatten.map Prod.fst).filter (fun k => m.count k = some 1)
      = m.buckets.flatten.map Prod.fst := by
    rw [List.filter_eq_self]
    intro k hk
    obtain ⟨i, _, hki⟩ := (mem_stored_iff m k).1 hk
    have hslot := hm.placed i k hki
    simp only [decide_eq_true_eq]
    rw [count_eq_one_iff hm.pos, hslot]
    exact hki
  rw [live_keys, hfilter]
  exact hm.nodup_stored.dedup

theorem Inv.length_live_keys [DecidableEq K] {m : unordered_map K V} (hm : Inv m) :
    m.live_keys.length = m.total := by
  rw [hm.live_keys_eq, List.length_map, List.length_flatten, total]

theorem Inv.size_eq [DecidableEq K] {m : unordered_map K V} (hm : Inv m)
    (h : m.total < SIZE_T_MOD) : m.size = m.live_keys.length := by
  rw [hm.length_live_keys, size, hm.counted, Nat.mod_eq_of_lt h]

theorem step_length [DecidableEq K] [Inhabited V] {m m1 : unordered_map K V}
    {op : Op K V} (h : step m op = some m1) : m1.buckets.length = m.buckets.length := by
  rcases Nat.eq_zero_or_pos m.buckets.length with h0 | hpos
  · cases op <;>
      simp [step, operator_subscript, unordered_map.insert, erase, find_bucket, bucket_index,
        h0] at h
  · cases op with
    | subscript key =>
      rw [step, operator_subscript_eq hpos] at h
      simp only [Option.map_some', Option.some.injEq] at h
      subst h
      split <;> simp
    | insert item =>
      rw [step, insert_eq hpos] at h
      simp only [Option.some.injEq] at h
      subst h
      split <;> simp
    | erase key =>
      rw [step, erase_eq hpos] at h
      simp only [Option.some.injEq] at h
      subst h
      split <;> simp

theorem step_hash [DecidableEq K] [Inhabited V] {m m1 : unordered_map K V}
    {op : Op K V} (h : step m op = some m1) : m1.hash = m.hash := by
  rcases Nat.eq_zero_or_pos m.buckets.length with h0 | hpos
  · cases op <;>
      simp [step, operator_subscript, unordered_map.insert, erase, find_bucket, bucket_index,
        h0] at h
  · cases op with
    | subscript key =>
      rw [step, operator_subscript_eq hpos] at h
      simp only [Option.map_some', Option.some.injEq] at h
      subst h
      split <;> simp
    | insert item =>
      rw [step, insert_eq hpos] at h
      simp only [Option.some.injEq] at h
      subst h
      split <;> simp
    | erase key =>
      rw [step, erase_eq hpos] at h
      simp only [Option.some.injEq] at h
      subst h
      split <;> simp

theorem step_total_le [DecidableEq K] [Inhabited V] {m m1 : unordered_map K V}
    (hpos : 0 < m.buckets.length) {op : Op K V} (h : step m op = some m1) :
    m1.total ≤ m.total + 1 := by
  have hsum := fun key b => sum_length_set (bucket_index_lt hpos key) b
  cases op with
  | subscript key =>
    rw [step, operator_subscript_eq hpos] at h
    simp only [Option.map_some', Option.some.injEq] at h
    subst h
    split
    · simp
    · have := hsum key (m.bucket_at (m.hash key % m.buckets.length) ++ [(key, default)])
      simp only [total, bucket_at, List.length_append, List.length_singleton] at this ⊢
      omega
  | insert item =>
    rw [step, insert_eq hpos] at h
    simp only [Option.some.injEq] at h
    subst h
    split
    · have := hsum item.1 (assign_second item.2 (m.bucket_at (m.hash item.1 % m.buckets.length))
        (scan item.1 (m.bucket_at (m.hash item.1 % m.buckets.length))))
      rw [length_assign_second] at this
      simp only [total, bucket_at] at this ⊢
      omega
    · have := hsum item.1 (m.bucket_at (m.hash item.1 % m.buckets.length) ++ [item])
      simp only [total, bucket_at, List.length_append, List.length_singleton] at this ⊢
      omega
  | erase key =>
    rw [step, erase_eq hpos] at h
    simp only [Option.some.injEq] at h
    subst h
    split
    · have := hsum key ((m.bucket_at (m.hash key % m.buckets.length)).eraseIdx
        (scan key (m.bucket_at (m.hash key % m.buckets.length))))
      have hle := List.length_eraseIdx_le (m.bucket_at (m.hash key % m.buckets.length))
        (scan key (m.bucket_at (m.hash key % m.buckets.length)))
      simp only [total, bucket_at] at this hle ⊢
      omega
    · simp

theorem run_inv [DecidableEq K] [Inhabited V] {m : unordered_map K V} (hm : Inv m)
    (ops : List (Op K V)) :
    ∃ m1, run m ops = some m1 ∧ Inv m1 ∧ m1.total ≤ m.total + ops.length
      ∧ m1.buckets.length = m.buckets.length ∧ m1.hash = m.hash := by
  induction ops generalizing m with
  | nil => exact ⟨m, rfl, hm, by simp, rfl, rfl⟩
  | cons op rest ih =>
    obtain ⟨m1, h1⟩ := step_defined hm.pos op
    obtain ⟨m2, h2, hinv, htot, hlen, hhash⟩ := ih (step_inv hm h1)
    have := step_total_le hm.pos h1
    refine ⟨m2, by simp [run, h1, h2], hinv, ?_, ?_, ?_⟩
    · simp only [List.length_cons]
      omega
    · rw [hlen, step_length h1]
    · rw [hhash, step_hash h1]

theorem Reachable.inv [DecidableEq K] [Inhabited V] {m : unordered_map K V}
    (h : Reachable m) : Inv m := by
  obtain ⟨n, hf, ops, hn, hrun⟩ := h
  obtain ⟨m1, h1, hinv, _⟩ := run_inv (ctor_inv hn hf) ops
  rw [h1] at hrun
  cases hrun
  exact hinv

end SeparateChaining

/-! ## Lookups after an update -/

namespace SeparateChaining

open unordered_map

variable {K V : Type}

theorem lookup_eq_none_iff [DecidableEq K] (key : K) (b : Bucket K V) :
    lookup key b = none ↔ key ∉ keys b := by
  rw [← scan_eq_length_iff]
  have := scan_le_length key b
  simp only [lookup, Option.map_eq_none', List.getElem?_eq_none_iff]
  omega

theorem lookup_append [DecidableEq K] (key k : K) (v : V) (b : Bucket K V) :
    lookup key (b ++ [(k, v)])
      = if key ∈ keys b then lookup key b else if key = k then some v else none := by
  by_cases hmem : key ∈ keys b
  · have hlt := (scan_lt_length_iff key b).2 hmem
    simp [lookup, hmem, scan_append_of_mem hmem, List.getElem?_append_left hlt]
  · by_cases hk : key = k
    · subst hk
      simp [lookup, hmem, scan_append_of_not_mem hmem]
    · have hnot : key ∉ keys (b ++ [(k, v)]) := by
        simp only [keys, List.map_append, List.map_cons, List.map_nil, List.mem_append,
          List.mem_singleton] at hmem ⊢
        exact fun h => h.elim hmem hk
      simp [hmem, hk, (lookup_eq_none_iff key _).2 hnot]

theorem scan_assign_second [DecidableEq K] (key : K) (v : V) (b : Bucket K V) (n : Nat) :
    scan key (assign_second v b n) = scan key b := by
  rw [scan_eq_indexOf, scan_eq_indexOf, keys_assign_second]

theorem lookup_assign_second [DecidableEq K] (key k : K) (v : V) (b : Bucket K V) :
    lookup key (assign_second v b (scan k b))
      = if key = k ∧ k ∈ keys b then some v else lookup key b := by
  simp only [lookup, scan_assign_second, getElem?_assign_second]
  by_cases hk : key = k
  · subst hk
    by_cases hmem : key ∈ keys b
    · obtain ⟨w, hw⟩ := fst_getElem_scan hmem
      simp [hmem, hw]
    · have := (scan_eq_length_iff key b).2 hmem
      simp [hmem, this]
  · by_cases hmem : key ∈ keys b
    · obtain ⟨w, hw⟩ := fst_getElem_scan hmem
      by_cases hs : scan key b = scan k b
      · have hlt := (scan_lt_length_iff key b).2 hmem
        have hkm : k ∈ keys b := (scan_lt_length_iff k b).1 (hs ▸ hlt)
        obtain ⟨w1, hw1⟩ := fst_getElem_scan hkm
        rw [hs, hw1] at hw
        simp only [Option.some.injEq, Prod.mk.injEq] at hw
        exact absurd hw.1.symm hk
      · simp [hk, hs]
    · have := (scan_eq_length_iff key b).2 hmem
      simp [hk, this]

theorem lookup_eraseIdx_scan [DecidableEq K] {key k : K} (h : key ≠ k) (b : Bucket K V) :
    lookup key (b.eraseIdx (scan k b)) = lookup key b := by
  induction b with
  | nil => simp [lookup, scan]
  | cons e rest ih =>
    by_cases h1 : e.1 = k
    · have h2 : e.1 ≠ key := fun h3 => h (h3 ▸ h1)
      simp only [lookup, scan, if_pos h1, if_neg h2, List.eraseIdx_cons_zero]
      simp
    · by_cases h2 : e.1 = key
      · simp only [lookup, scan, if_neg h1, if_pos h2, List.eraseIdx_cons_succ]
        simp
      · simp only [lookup] at ih
        simp [lookup, scan, h1, h2, ih]

theorem mem_keys_eraseIdx_scan [DecidableEq K] {key k : K} (h : key ≠ k) (b : Bucket K V) :
    key ∈ keys (b.eraseIdx (scan k b)) ↔ key ∈ keys b := by
  rw [keys_eraseIdx_scan]
  exact List.mem_erase_of_ne h

theorem bucket_at_set (m : unordered_map K V) {i : Nat} (hi : i < m.buckets.length)
    (b : Bucket K V) (c : Nat) (j : Nat) :
    ({ buckets := m.buckets.set i b, hash := m.hash, num_elements := c } :
        unordered_map K V).bucket_at j
      = if j = i then b else m.bucket_at j := by
  by_cases hj : j = i
  · subst hj
    simp only [bucket_at, if_true]
    exact getD_set_self hi b
  · simp only [bucket_at, if_neg hj]
    exact getD_set_ne (Ne.symm hj) b

theorem find_value_eq [DecidableEq K] {m : unordered_map K V} (h : 0 < m.buckets.length)
    (key : K) :
    m.find_value key = lookup key (m.bucket_at (m.hash key % m.buckets.length)) := by
  simp [find_value, find, find_bucket_eq h, value_at, entry_at, lookup]

end SeparateChaining

/-! ## Observations after one call -/

namespace SeparateChaining

open unordered_map

variable {K V : Type}

theorem count_set [DecidableEq K] (m : unordered_map K V) {i : Nat}
    (hi : i < m.buckets.length) (b : Bucket K V) (c : Nat) (key : K) :
    ({ buckets := m.buckets.set i b, hash := m.hash, num_elements := c } :
        unordered_map K V).count key
      = some (if key ∈ keys (if m.hash key % m.buckets.length = i then b
          else m.bucket_at (m.hash key % m.buckets.length)) then 1 else 0) := by
  have hpos : 0 < ({ buckets := m.buckets.set i b, hash := m.hash, num_elements := c } :
      unordered_map K V).buckets.length := by
    simp only [List.length_set]
    omega
  rw [count_eq hpos]
  simp only [List.length_set, bucket_at_set m hi]

theorem find_value_set [DecidableEq K] (m : unordered_map K V) {i : Nat}
    (hi : i < m.buckets.length) (b : Bucket K V) (c : Nat) (key : K) :
    ({ buckets := m.buckets.set i b, hash := m.hash, num_elements := c } :
        unordered_map K V).find_value key
      = lookup key (if m.hash key % m.buckets.length = i then b
          else m.bucket_at (m.hash key % m.buckets.length)) := by
  have hpos : 0 < ({ buckets := m.buckets.set i b, hash := m.hash, num_elements := c } :
      unordered_map K V).buckets.length := by
    simp only [List.length_set]
    omega
  rw [find_value_eq hpos]
  simp only [List.length_set, bucket_at_set m hi]

theorem count_insert [DecidableEq K] {m m1 : unordered_map K V} (hpos : 0 < m.buckets.length)
    {item : K × V} (h : m.insert item = some m1) (key : K) :
    m1.count key = if key = item.1 then some 1 else m.count key := by
  rw [insert_eq hpos] at h
  have hi := bucket_index_lt hpos item.1
  rw [count_eq hpos key]
  split at h
  · rename_i hk
    cases h
    rw [count_set m hi]
    by_cases hkey : key = item.1
    · subst hkey
      simp [keys_assign_second, hk]
    · by_cases hb : m.hash key % m.buckets.length = m.hash item.1 % m.buckets.length
      · simp [hkey, hb, keys_assign_second]
      · simp [hkey, hb]
  · rename_i hk
    cases h
    rw [count_set m hi]
    by_cases hkey : key = item.1
    · subst hkey
      simp [keys]
    · by_cases hb : m.hash key % m.buckets.length = m.hash item.1 % m.buckets.length
      · simp only [hkey, hb, keys, if_true, if_false, List.map_append, List.map_cons,
          List.map_nil, List.mem_append, List.mem_singleton, or_false]
      · simp [hkey, hb]

theorem find_value_insert [DecidableEq K] {m m1 : unordered_map K V}
    (hpos : 0 < m.buckets.length) {item : K × V} (h : m.insert item = some m1) (key : K) :
    m1.find_value key = if key = item.1 then some item.2 else m.find_value key := by
  rw [insert_eq hpos] at h
  have hi := bucket_index_lt hpos item.1
  rw [find_value_eq hpos key]
  split at h
  · rename_i hk
    cases h
    rw [find_value_set m hi]
    by_cases hkey : key = item.1
    · subst hkey
      simp [lookup_assign_second, hk]
    · by_cases hb : m.hash key % m.buckets.length = m.hash item.1 % m.buckets.length
      · simp [hkey, hb, lookup_assign_second]
      · simp [hkey, hb]
  · rename_i hk
    cases h
    rw [find_value_set m hi]
    by_cases hkey : key = item.1
    · subst hkey
      obtain ⟨k, v⟩ := item
      simp only at hk
      simp [lookup_append, hk]
    · by_cases hb : m.hash key % m.buckets.length = m.hash item.1 % m.buckets.length
      · rw [if_pos hb, if_neg hkey, lookup_append, if_neg hkey, hb]
        by_cases hmem : key ∈ keys (m.bucket_at (m.hash item.1 % m.buckets.length))
        · simp [hmem]
        · simp [hmem, (lookup_eq_none_iff key _).2 hmem]
      · simp [hkey, hb]

theorem count_erase [DecidableEq K] {m m1 : unordered_map K V} (hm : Inv m) {k : K}
    (h : m.erase k = some m1) (key : K) :
    m1.count key = if key = k then some 0 else m.count key := by
  have hpos := hm.pos
  rw [erase_eq hpos] at h
  have hi := bucket_index_lt hpos k
  split at h
  · rename_i hk
    cases h
    rw [count_set m hi]
    by_cases hkey : key = k
    · subst hkey
      have := (hm.nodup (m.hash key % m.buckets.length)).mem_erase_iff (a := key) (b := key)
      simp [keys_eraseIdx_scan, this]
    · rw [if_neg hkey, count_eq hpos]
      by_cases hb : m.hash key % m.buckets.length = m.hash k % m.buckets.length
      · simp only [hb, if_true, mem_keys_eraseIdx_scan hkey]
      · simp only [hb, if_false]
  · rename_i hk
    cases h
    by_cases hkey : key = k
    · subst hkey
      simp [count_eq hpos, hk]
    · simp [hkey]

theorem find_value_erase [DecidableEq K] {m m1 : unordered_map K V}
    (hpos : 0 < m.buckets.length) {k : K} (h : m.erase k = some m1) {key : K}
    (hkey : key ≠ k) : m1.find_value key = m.find_value key := by
  rw [erase_eq hpos] at h
  have hi := bucket_index_lt hpos k
  split at h
  · cases h
    rw [find_value_set m hi, find_value_eq hpos]
    by_cases hb : m.hash key % m.buckets.length = m.hash k % m.buckets.length
    · simp only [hb, if_true, lookup_eraseIdx_scan hkey]
    · simp only [hb, if_false]
  · cases h
    rfl

theorem operator_subscript_fst [DecidableEq K] [Inhabited V] {m : unordered_map K V}
    (hpos : 0 < m.buckets.length) (key : K) :
    (m.operator_subscript key).map Prod.fst
      = if m.count key = some 1 then some m else m.insert (key, default) := by
  have hc := count_eq_one_iff hpos key
  rw [operator_subscript_eq hpos, insert_eq hpos]
  by_cases hk : key ∈ keys (m.bucket_at (m.hash key % m.buckets.length))
  · simp [hk, hc.2 hk]
  · have hne : m.count key ≠ some 1 := fun h1 => hk (hc.1 h1)
    simp [hk, hne]

end SeparateChaining

/-! ## The two branches of each call -/

namespace SeparateChaining

open unordered_map

variable {K V : Type}

theorem size_t_inc_of_lt {n : Nat} (h : n + 1 < SIZE_T_MOD) : size_t_inc n = n + 1 := by
  simp only [size_t_inc]
  exact Nat.mod_eq_of_lt h

theorem size_t_dec_of_pos {n : Nat} (h0 : 0 < n) : size_t_dec n + 1 = n := by
  simp only [size_t_dec]
  split <;> omega

theorem erase_of_mem [DecidableEq K] {m : unordered_map K V} (h : 0 < m.buckets.length)
    {key : K} (hk : key ∈ keys (m.bucket_at (m.hash key % m.buckets.length))) :
    m.erase key = some
      { buckets := m.buckets.set (m.hash key % m.buckets.length)
          ((m.bucket_at (m.hash key % m.buckets.length)).eraseIdx
            (scan key (m.bucket_at (m.hash key % m.buckets.length))))
        hash := m.hash
        num_elements := size_t_dec m.num_elements } := by
  rw [erase_eq h, if_pos hk]

theorem erase_of_not_mem [DecidableEq K] {m : unordered_map K V} (h : 0 < m.buckets.length)
    {key : K} (hk : key ∉ keys (m.bucket_at (m.hash key % m.buckets.length))) :
    m.erase key = some m := by
  rw [erase_eq h, if_neg hk]

theorem insert_of_mem [DecidableEq K] {m : unordered_map K V} (h : 0 < m.buckets.length)
    {item : K × V} (hk : item.1 ∈ keys (m.bucket_at (m.hash item.1 % m.buckets.length))) :
    m.insert item = some
      { buckets := m.buckets.set (m.hash item.1 % m.buckets.length)
          (assign_second item.2 (m.bucket_at (m.hash item.1 % m.buckets.length))
            (scan item.1 (m.bucket_at (m.hash item.1 % m.buckets.length))))
        hash := m.hash
        num_elements := m.num_elements } := by
  rw [insert_eq h, if_pos hk]

theorem insert_of_not_mem [DecidableEq K] {m : unordered_map K V} (h : 0 < m.buckets.length)
    {item : K × V} (hk : item.1 ∉ keys (m.bucket_at (m.hash item.1 % m.buckets.length))) :
    m.insert item = some
      { buckets := m.buckets.set (m.hash item.1 % m.buckets.length)
          (m.bucket_at (m.hash item.1 % m.buckets.length) ++ [item])
        hash := m.hash
        num_elements := size_t_inc m.num_elements } := by
  rw [insert_eq h, if_neg hk]

theorem operator_subscript_of_mem [DecidableEq K] [Inhabited V] {m : unordered_map K V}
    (h : 0 < m.buckets.length) {key : K}
    (hk : key ∈ keys (m.bucket_at (m.hash key % m.buckets.length))) :
    m.operator_subscript key = some (m, ⟨m.hash key % m.buckets.length,
      scan key (m.bucket_at (m.hash key % m.buckets.length))⟩) := by
  rw [operator_subscript_eq h, if_pos hk]

theorem operator_subscript_of_not_mem [DecidableEq K] [Inhabited V] {m : unordered_map K V}
    (h : 0 < m.buckets.length) {key : K}
    (hk : key ∉ keys (m.bucket_at (m.hash key % m.buckets.length))) :
    m.operator_subscript key = some
      ({ buckets := m.buckets.set (m.hash key % m.buckets.length)
           (m.bucket_at (m.hash key % m.buckets.length) ++ [(key, default)])
         hash := m.hash
         num_elements := size_t_inc m.num_elements },
       ⟨m.hash key % m.buckets.length,
        (m.bucket_at (m.hash key % m.buckets.length)).length⟩) := by
  rw [operator_subscript_eq h, if_neg hk]

theorem operator_subscript_absent [DecidableEq K] [Inhabited V] {m : unordered_map K V}
    (h : 0 < m.buckets.length) {key : K}
    (hk : key ∉ keys (m.bucket_at (m.hash key % m.buckets.length))) :
    ∃ m1, m.operator_subscript key = some (m1, ⟨m.hash key % m.buckets.length,
          (m.bucket_at (m.hash key % m.buckets.length)).length⟩)
      ∧ m.insert (key, default) = some m1
      ∧ m1.buckets.length = m.buckets.length
      ∧ m1.hash = m.hash
      ∧ m1.bucket_at (m.hash key % m.buckets.length)
          = m.bucket_at (m.hash key % m.buckets.length) ++ [(key, default)]
      ∧ (∀ j, j ≠ m.hash key % m.buckets.length → m1.bucket_at j = m.bucket_at j)
      ∧ m1.num_elements = size_t_inc m.num_elements := by
  have hi := bucket_index_lt h key
  refine ⟨_, operator_subscript_of_not_mem h hk, insert_of_not_mem h hk, ?_, rfl, ?_, ?_, rfl⟩
  · simp
  · rw [bucket_at_set m hi, if_pos rfl]
  · intro j hj
    rw [bucket_at_set m hi, if_neg hj]

theorem value_at_scan [DecidableEq K] {m : unordered_map K V} (h : 0 < m.buckets.length)
    (key : K) :
    m.value_at ⟨m.hash key % m.buckets.length,
      scan key (m.bucket_at (m.hash key % m.buckets.length))⟩ = m.find_value key := by
  rw [find_value_eq h]
  rfl

theorem total_set (m : unordered_map K V) {i : Nat} (hi : i < m.buckets.length)
    (b : Bucket K V) (c : Nat) :
    ({ buckets := m.buckets.set i b, hash := m.hash, num_elements := c } :
        unordered_map K V).total + (m.bucket_at i).length = m.total + b.length := by
  simpa [total, bucket_at] using sum_length_set hi b

end SeparateChaining

/-! ## Inserting a list of pairs -/

namespace SeparateChaining

open unordered_map

variable {K V : Type}

theorem insert_defined [DecidableEq K] {m : unordered_map K V} (h : 0 < m.buckets.length)
    (item : K × V) : ∃ m1, m.insert item = some m1 :=
  ⟨_, insert_eq h item⟩

theorem total_insert [DecidableEq K] {m m1 : unordered_map K V} (hpos : 0 < m.buckets.length)
    {item : K × V} (h : m.insert item = some m1) :
    m1.total = if m.count item.1 = some 1 then m.total else m.total + 1 := by
  have hi := bucket_index_lt hpos item.1
  have hc := count_eq_one_iff hpos item.1
  by_cases hk : item.1 ∈ keys (m.bucket_at (m.hash item.1 % m.buckets.length))
  · rw [insert_of_mem hpos hk] at h
    cases h
    have := total_set m hi (assign_second item.2 (m.bucket_at (m.hash item.1 % m.buckets.length))
      (scan item.1 (m.bucket_at (m.hash item.1 % m.buckets.length)))) m.num_elements
    rw [length_assign_second] at this
    rw [if_pos (hc.2 hk)]
    omega
  · rw [insert_of_not_mem hpos hk] at h
    cases h
    have := total_set m hi (m.bucket_at (m.hash item.1 % m.buckets.length) ++ [item])
      (size_t_inc m.num_elements)
    rw [List.length_append, List.length_singleton] at this
    rw [if_neg (fun h1 => hk (hc.1 h1))]
    omega

theorem run_inserts [DecidableEq K] [Inhabited V] {m : unordered_map K V} (hm : Inv m)
    (kvs : List (K × V)) (hd : (kvs.map Prod.fst).Nodup)
    (habs : ∀ kv ∈ kvs, m.count kv.1 = some 0) :
    ∃ m1, run m (kvs.map Op.insert) = some m1 ∧ Inv m1
      ∧ m1.total = m.total + kvs.length
      ∧ (∀ kv ∈ kvs, m1.find_value kv.1 = some kv.2 ∧ m1.count kv.1 = some 1)
      ∧ (∀ k, k ∉ kvs.map Prod.fst → m1.find_value k = m.find_value k
          ∧ m1.count k = m.count k) := by
  induction kvs generalizing m with
  | nil => exact ⟨m, rfl, hm, by simp, by simp, by simp⟩
  | cons kv rest ih =>
    obtain ⟨m1, h1⟩ := insert_defined hm.pos kv
    have hinv1 := insert_inv hm h1
    have hd1 : (rest.map Prod.fst).Nodup := (List.nodup_cons.1 hd).2
    have hnot : kv.1 ∉ rest.map Prod.fst := (List.nodup_cons.1 hd).1
    have habs1 : ∀ e ∈ rest, m1.count e.1 = some 0 := by
      intro e he
      have hne : e.1 ≠ kv.1 := fun heq => hnot (heq ▸ List.mem_map_of_mem Prod.fst he)
      rw [count_insert hm.pos h1, if_neg hne]
      exact habs e (List.mem_cons_of_mem _ he)
    obtain ⟨m2, h2, hinv2, htot2, hin2, hout2⟩ := ih hinv1 hd1 habs1
    have htot1 := total_insert hm.pos h1
    have hkv0 := habs kv (List.mem_cons_self _ _)
    rw [if_neg (by rw [hkv0]; decide)] at htot1
    refine ⟨m2, by simp [run, step, h1, h2], hinv2, ?_, ?_, ?_⟩
    · simp only [List.length_cons]
      omega
    · intro e he
      rcases List.mem_cons.1 he with rfl | he
      · obtain ⟨hv, hc⟩ := hout2 e.1 hnot
        rw [hv, hc, find_value_insert hm.pos h1, count_insert hm.pos h1]
        simp
      · exact hin2 e he
    · intro k hk
      have hk1 : k ≠ kv.1 := fun heq => hk (by simp [heq])
      have hk2 : k ∉ rest.map Prod.fst := fun hmem => hk (by
        simp only [List.map_cons, List.mem_cons]
        exact Or.inr hmem)
      obtain ⟨hv, hc⟩ := hout2 k hk2
      rw [hv, hc, find_value_insert hm.pos h1, count_insert hm.pos h1]
      simp [hk1]

end SeparateChaining

/-! ## The claims of the specification -/

namespace SeparateChaining

open unordered_map

variable {K V : Type}

theorem scenario_map_reachable : Reachable scenario_map :=
  ⟨4, mod4, scenario_ops, by decide, rfl⟩

theorem total_ctor (n : Nat) (h : K → Nat) : (ctor n h : unordered_map K V).total = 0 := by
  simp [ctor, total]

theorem count_ctor [DecidableEq K] {n : Nat} (hn : 0 < n) (h : K → Nat) (key : K) :
    (ctor n h : unordered_map K V).count key = some 0 := by
  have hinv : Inv (ctor n h : unordered_map K V) := ctor_inv hn h
  rw [count_eq_zero_iff hinv.pos]
  have hlt := bucket_index_lt hinv.pos key
  simp only [ctor, List.length_replicate] at hlt
  simp [ctor, bucket_at, keys, List.getD_eq_getElem?_getD, hlt]

theorem count_eq_none_of_no_bucket [DecidableEq K] {m : unordered_map K V}
    (h : m.buckets.length = 0) (key : K) : m.count key = none := by
  simp [count, find_bucket, bucket_index, h]

/-- C1: from a map constructed with at least one bucket and any hash function, every
sequence of `insert`, `operator[]` and `erase` calls runs to a state in which `size()`
is the number of distinct keys `k` with `count(k) = 1` (the sequence being shorter than
`2^64` calls, the range of the `size_t` counter). -/
theorem size_eq_number_of_live_keys [DecidableEq K] [Inhabited V] (n : Nat) (h : K → Nat)
    (ops : List (Op K V)) (hn : 0 < n) (hfit : ops.length < SIZE_T_MOD) :
    ∃ m, run (ctor n h) ops = some m ∧ m.size = m.live_keys.length ∧ m.live_keys.Nodup
      ∧ ∀ k, k ∈ m.live_keys ↔ m.count k = some 1 := by
  obtain ⟨m, hrun, hinv, htot, _⟩ := run_inv (ctor_inv hn h) ops
  have h0 := total_ctor (V := V) n h
  exact ⟨m, hrun, hinv.size_eq (by omega), nodup_live_keys m, mem_live_keys_iff m⟩

theorem size_eq_number_of_live_keys_witness :
    0 < 4 ∧ mixed_ops.length < SIZE_T_MOD
      ∧ ∃ m, run (ctor 4 mod4) mixed_ops = some m ∧ m.size = m.live_keys.length
          ∧ m.live_keys.Nodup ∧ ∀ k, k ∈ m.live_keys ↔ m.count k = some 1 :=
  ⟨by decide, by decide, size_eq_number_of_live_keys 4 mod4 mixed_ops (by decide) (by decide)⟩

/-- C2 (defect in `clear`): on the scenario map (four buckets, keys 1, 5, 9) `clear()`
leaves a bucket array of length 0, not four empty buckets; `size()` is 0 and `empty()`
true, but `count(k)` is undefined afterwards (`hash(k) % 0`), here for k = 1 and k = 2. -/
theorem clear_leaves_count_undefined :
    scenario_map.clear.buckets.length = 0 ∧ scenario_map.clear.size = 0
      ∧ scenario_map.clear.empty = true ∧ scenario_map.clear.count 1 = none
      ∧ scenario_map.clear.count 2 = none := by
  decide

/-- C3 (counterexample): the constructor called with a bucket count of zero returns a
map, and that map has zero buckets. -/
theorem ctor_zero_returns_map :
    ∃ m : unordered_map Nat Int, ctor 0 mod4 = m ∧ m.buckets.length = 0 ∧ m.size = 0 :=
  ⟨ctor 0 mod4, rfl, rfl, rfl⟩

/-- C3 (amended): a bucket count of zero is not rejected. Whatever the hash function, the
constructor called with `num_buckets = 0` returns a map with zero buckets, `size() = 0`
and `empty()` true; on that map `count(k)` is undefined for every key (`hash(k) % 0`). -/
theorem ctor_zero_is_not_rejected [DecidableEq K] (h : K → Nat) :
    (ctor 0 h : unordered_map K V).buckets = []
      ∧ (ctor 0 h : unordered_map K V).buckets.length = 0
      ∧ (ctor 0 h : unordered_map K V).hash = h
      ∧ (ctor 0 h : unordered_map K V).size = 0
      ∧ (ctor 0 h : unordered_map K V).empty = true
      ∧ ∀ key, (ctor 0 h : unordered_map K V).count key = none :=
  ⟨rfl, rfl, rfl, rfl, rfl,
    fun key => @count_eq_none_of_no_bucket K V _ (ctor 0 h) rfl key⟩

/-- C4 (defect in `clear`): the scenario map has four buckets before `clear()` and none
after it, so the length of the bucket array is not fixed for the lifetime of the map. -/
theorem clear_changes_bucket_count :
    scenario_map.buckets.length = 4 ∧ scenario_map.clear.buckets.length = 0 := by
  decide

end SeparateChaining


namespace SeparateChaining

open unordered_map

variable {K V : Type}

/-- C5: in a reachable state holding fewer than `2^64` entries, `erase(k)` of a present
key `k` succeeds and removes exactly that entry: afterwards `count(k) = 0`, `size()` is
one less than before, one entry fewer is stored, and every other key keeps its `count`
and the value `find` reads for it, a key of the same bucket included. -/
theorem erase_present_removes_exactly_that_entry [DecidableEq K] [Inhabited V]
    (m : unordered_map K V) (k : K) (hreach : Reachable m) (hpresent : m.count k = some 1)
    (hfit : m.total < SIZE_T_MOD) :
    ∃ m1, m.erase k = some m1 ∧ m1.count k = some 0 ∧ m1.size + 1 = m.size
      ∧ m1.total + 1 = m.total ∧ m1.buckets.length = m.buckets.length
      ∧ ∀ k1, k1 ≠ k → m1.count k1 = m.count k1 ∧ m1.find_value k1 = m.find_value k1 := by
  have hm := hreach.inv
  have hk := (count_eq_one_iff hm.pos k).1 hpresent
  have hi := bucket_index_lt hm.pos k
  have he := erase_of_mem hm.pos hk
  refine ⟨_, he, ?_, ?_, ?_, ?_, ?_⟩
  · rw [count_erase hm he, if_pos rfl]
  · have hlt := (scan_lt_length_iff k _).2 hk
    have hle := bucket_at_le_total m hi
    have hc := hm.counted
    rw [Nat.mod_eq_of_lt hfit] at hc
    simp only [size]
    exact size_t_dec_of_pos (by omega)
  · have hlt := (scan_lt_length_iff k _).2 hk
    have := total_set m hi ((m.bucket_at (m.hash k % m.buckets.length)).eraseIdx
      (scan k (m.bucket_at (m.hash k % m.buckets.length)))) (size_t_dec m.num_elements)
    rw [List.length_eraseIdx_of_lt hlt] at this
    omega
  · simp
  · intro k1 hk1
    exact ⟨by rw [count_erase hm he, if_neg hk1], find_value_erase hm.pos he hk1⟩

theorem erase_present_removes_exactly_that_entry_witness :
    Reachable scenario_map ∧ scenario_map.count 5 = some 1 ∧ scenario_map.total < SIZE_T_MOD
      ∧ scenario_map.size = 3
      ∧ (scenario_map.erase 5).map (fun m1 => (m1.buckets, m1.size, m1.count 5, m1.count 1,
          m1.count 9)) = some ([[], [(1, 10), (9, 90)], [], []], 2, some 0, some 1, some 1)
      ∧ ∃ m1, scenario_map.erase 5 = some m1 ∧ m1.count 5 = some 0
          ∧ m1.size + 1 = scenario_map.size ∧ m1.total + 1 = scenario_map.total
          ∧ m1.buckets.length = scenario_map.buckets.length
          ∧ ∀ k1, k1 ≠ 5 → m1.count k1 = scenario_map.count k1
              ∧ m1.find_value k1 = scenario_map.find_value k1 :=
  ⟨scenario_map_reachable, by decide, by decide, by decide, by decide,
    erase_present_removes_exactly_that_entry scenario_map 5 scenario_map_reachable
      (by decide) (by decide)⟩

/-- C6: in a reachable state, `erase(k)` of a key that is not present succeeds and
returns the state unchanged: the same buckets, the same hash, the same `size()`. -/
theorem erase_absent_leaves_state_unchanged [DecidableEq K] [Inhabited V]
    (m : unordered_map K V) (k : K) (hreach : Reachable m) (habsent : m.count k = some 0) :
    m.erase k = some m := by
  have hm := hreach.inv
  exact erase_of_not_mem hm.pos ((count_eq_zero_iff hm.pos k).1 habsent)

theorem erase_absent_leaves_state_unchanged_witness :
    Reachable scenario_map ∧ scenario_map.count 13 = some 0
      ∧ scenario_map.erase 13 = some scenario_map :=
  ⟨scenario_map_reachable, by decide,
    erase_absent_leaves_state_unchanged scenario_map 13 scenario_map_reachable (by decide)⟩

end SeparateChaining

namespace SeparateChaining

open unordered_map

variable {K V : Type}

theorem fresh_string_map_reachable : Reachable fresh_string_map :=
  ⟨100, string_hash, [], by decide, rfl⟩

/-- C7: in a reachable state whose counter is below its largest value, `operator[]` on a
key `k` that is not present succeeds, returns a reference to a slot holding the default
value, has appended `(k, default)` at the end of bucket `hash(k) mod num_buckets` (the
returned slot is that last position, every other bucket is as before) and has increased
`size()` by exactly one; afterwards `count(k) = 1` and `find(k)` reads the default. -/
theorem subscript_absent_appends_default [DecidableEq K] [Inhabited V]
    (m : unordered_map K V) (k : K) (hreach : Reachable m) (habsent : m.count k = some 0)
    (hfit : m.size + 1 < SIZE_T_MOD) :
    ∃ m1 it, m.operator_subscript k = some (m1, it)
      ∧ m1.value_at it = some default
      ∧ it = ⟨m.hash k % m.buckets.length, (m.bucket_at (m.hash k % m.buckets.length)).length⟩
      ∧ m1.bucket_at (m.hash k % m.buckets.length)
          = m.bucket_at (m.hash k % m.buckets.length) ++ [(k, default)]
      ∧ (∀ j, j ≠ m.hash k % m.buckets.length → m1.bucket_at j = m.bucket_at j)
      ∧ m1.buckets.length = m.buckets.length
      ∧ m1.size = m.size + 1
      ∧ m1.count k = some 1
      ∧ m1.find_value k = some default := by
  have hm := hreach.inv
  have hk := (count_eq_zero_iff hm.pos k).1 habsent
  obtain ⟨m1, hs, hins, hlen, _, hb, hothers, hnum⟩ := operator_subscript_absent hm.pos hk
  refine ⟨m1, _, hs, ?_, rfl, hb, hothers, hlen, ?_, ?_, ?_⟩
  · simp only [value_at, entry_at, hb]
    simp
  · simp only [size] at hfit ⊢
    rw [hnum]
    exact size_t_inc_of_lt hfit
  · rw [count_insert hm.pos hins, if_pos rfl]
  · rw [find_value_insert hm.pos hins, if_pos rfl]

theorem subscript_absent_appends_default_witness :
    Reachable fresh_string_map ∧ fresh_string_map.count "x" = some 0
      ∧ fresh_string_map.size + 1 < SIZE_T_MOD ∧ (default : ℚ) = 0
      ∧ ∃ m1 it, fresh_string_map.operator_subscript "x" = some (m1, it)
          ∧ m1.value_at it = some default
          ∧ it = ⟨fresh_string_map.hash "x" % fresh_string_map.buckets.length,
              (fresh_string_map.bucket_at
                (fresh_string_map.hash "x" % fresh_string_map.buckets.length)).length⟩
          ∧ m1.bucket_at (fresh_string_map.hash "x" % fresh_string_map.buckets.length)
              = fresh_string_map.bucket_at
                  (fresh_string_map.hash "x" % fresh_string_map.buckets.length)
                ++ [("x", default)]
          ∧ (∀ j, j ≠ fresh_string_map.hash "x" % fresh_string_map.buckets.length →
              m1.bucket_at j = fresh_string_map.bucket_at j)
          ∧ m1.buckets.length = fresh_string_map.buckets.length
          ∧ m1.size = fresh_string_map.size + 1
          ∧ m1.count "x" = some 1
          ∧ m1.find_value "x" = some default :=
  ⟨fresh_string_map_reachable, by decide, by decide, rfl,
    subscript_absent_appends_default fresh_string_map "x" fresh_string_map_reachable
      (by decide) (by decide)⟩

end SeparateChaining

namespace SeparateChaining

open unordered_map

variable {K V : Type}

/-- C10: pairs with pairwise distinct keys (fewer than `2^64` of them), inserted in the
order of the list into a map freshly constructed with at least one bucket and any hash
function, all go in; afterwards `size()` is the number of pairs, and for every pair
`find` reads the inserted value and `operator[]` returns a slot holding it without
changing the state. -/
theorem insert_lookup_round_trip [DecidableEq K] [Inhabited V] (n : Nat) (h : K → Nat)
    (kvs : List (K × V)) (hn : 0 < n) (hdistinct : (kvs.map Prod.fst).Nodup)
    (hfit : kvs.length < SIZE_T_MOD) :
    ∃ m, run (ctor n h) (kvs.map Op.insert) = some m ∧ m.size = kvs.length
      ∧ ∀ kv ∈ kvs, m.find_value kv.1 = some kv.2 ∧ m.count kv.1 = some 1
          ∧ ∃ it, m.operator_subscript kv.1 = some (m, it) ∧ m.value_at it = some kv.2 := by
  obtain ⟨m, hrun, hinv, htot, hin, _⟩ := run_inserts (ctor_inv hn h) kvs hdistinct
    (fun kv _ => count_ctor hn h kv.1)
  rw [total_ctor, Nat.zero_add] at htot
  refine ⟨m, hrun, ?_, ?_⟩
  · rw [size, hinv.counted, htot, Nat.mod_eq_of_lt hfit]
  · intro kv hkv
    obtain ⟨hv, hc⟩ := hin kv hkv
    refine ⟨hv, hc, _, operator_subscript_of_mem hinv.pos ((count_eq_one_iff hinv.pos _).1 hc), ?_⟩
    rw [value_at_scan hinv.pos, hv]

theorem insert_lookup_round_trip_witness :
    0 < 4 ∧ (round_trip_items.map Prod.fst).Nodup ∧ round_trip_items.length < SIZE_T_MOD
      ∧ (run (ctor 4 mod4) (round_trip_items.map Op.insert)).map (fun m =>
          (m.buckets, m.size, m.find_value 6, m.find_value 3, m.find_value 2, m.find_value 8))
          = some ([[(8, 80)], [], [(6, 60), (2, 20)], [(3, 30)]], 4,
              some 60, some 30, some 20, some 80)
      ∧ ∃ m, run (ctor 4 mod4) (round_trip_items.map Op.insert) = some m
          ∧ m.size = round_trip_items.length
          ∧ ∀ kv ∈ round_trip_items, m.find_value kv.1 = some kv.2 ∧ m.count kv.1 = some 1
              ∧ ∃ it, m.operator_subscript kv.1 = some (m, it) ∧ m.value_at it = some kv.2 :=
  ⟨by decide, by decide, by decide, rfl,
    insert_lookup_round_trip 4 mod4 round_trip_items (by decide) (by decide) (by decide)⟩

end SeparateChaining

/-! ## Calls on other keys, and erasing a list of keys -/

namespace SeparateChaining

open unordered_map

variable {K V : Type}

theorem run_append [DecidableEq K] [Inhabited V] (m : unordered_map K V)
    (a b : List (Op K V)) : run m (a ++ b) = (run m a).bind fun m1 => run m1 b := by
  induction a generalizing m with
  | nil => simp [run]
  | cons op rest ih =>
    simp only [List.cons_append, run]
    cases step m op with
    | none => simp
    | some m1 => simp [ih]

theorem mem_keys_iff {k : K} {b : Bucket K V} : k ∈ keys b ↔ ∃ v, (k, v) ∈ b := by
  simp [keys]

theorem find_value_eq_none_iff [DecidableEq K] {m : unordered_map K V}
    (hpos : 0 < m.buckets.length) (k : K) : m.find_value k = none ↔ m.count k = some 0 := by
  rw [find_value_eq hpos, lookup_eq_none_iff, count_eq_zero_iff hpos]

theorem step_subscript_eq [DecidableEq K] [Inhabited V] {m : unordered_map K V}
    (hpos : 0 < m.buckets.length) (k : K) :
    step m (Op.subscript k) = if m.count k = some 1 then some m else m.insert (k, default) :=
  operator_subscript_fst hpos k

theorem step_other_key [DecidableEq K] [Inhabited V] {m m1 : unordered_map K V} (hm : Inv m)
    {op : Op K V} (h : step m op = some m1) {k : K} (hk : k ≠ op.key) :
    m1.count k = m.count k ∧ m1.find_value k = m.find_value k := by
  cases op with
  | subscript key =>
    have hk1 : k ≠ key := hk
    rw [step_subscript_eq hm.pos] at h
    split at h
    · cases h
      exact ⟨rfl, rfl⟩
    · exact ⟨by rw [count_insert hm.pos h, if_neg hk1],
        by rw [find_value_insert hm.pos h, if_neg hk1]⟩
  | insert item =>
    have hk1 : k ≠ item.1 := hk
    have h1 : m.insert item = some m1 := h
    exact ⟨by rw [count_insert hm.pos h1, if_neg hk1],
      by rw [find_value_insert hm.pos h1, if_neg hk1]⟩
  | erase key =>
    have hk1 : k ≠ key := hk
    have h1 : m.erase key = some m1 := h
    exact ⟨by rw [count_erase hm h1, if_neg hk1], find_value_erase hm.pos h1 hk1⟩

theorem run_unmentioned_key [DecidableEq K] [Inhabited V] {m m1 : unordered_map K V}
    (hm : Inv m) {ops : List (Op K V)} (h : run m ops = some m1) {k : K}
    (hk : ∀ op ∈ ops, k ≠ op.key) :
    m1.count k = m.count k ∧ m1.find_value k = m.find_value k := by
  induction ops generalizing m with
  | nil =>
    simp only [run, Option.some.injEq] at h
    subst h
    exact ⟨rfl, rfl⟩
  | cons op rest ih =>
    obtain ⟨m2, h2⟩ := step_defined hm.pos op
    simp only [run, h2, Option.some_bind] at h
    obtain ⟨hc, hv⟩ := ih (step_inv hm h2) h (fun o ho => hk o (List.mem_cons_of_mem _ ho))
    obtain ⟨hc2, hv2⟩ := step_other_key hm h2 (hk op (List.mem_cons_self _ _))
    exact ⟨hc.trans hc2, hv.trans hv2⟩

theorem run_erases [DecidableEq K] [Inhabited V] {m : unordered_map K V} (hm : Inv m)
    (es : List K) :
    ∃ m1, run m (es.map Op.erase) = some m1 ∧ Inv m1
      ∧ ∀ k, m1.count k = if k ∈ es then some 0 else m.count k := by
  induction es generalizing m with
  | nil => exact ⟨m, rfl, hm, by simp⟩
  | cons e rest ih =>
    obtain ⟨m1, h1⟩ := step_defined hm.pos (Op.erase (V := V) e)
    have hinv1 := step_inv hm h1
    obtain ⟨m2, h2, hinv2, hc2⟩ := ih hinv1
    refine ⟨m2, by simp [run, h1, h2], hinv2, ?_⟩
    intro k
    have hce : m1.count k = if k = e then some 0 else m.count k := count_erase hm h1 k
    rw [hc2 k, hce]
    by_cases hke : k = e
    · subst hke
      simp
    · by_cases hkr : k ∈ rest
      · simp [hke, hkr]
      · simp [hke, hkr]

theorem Inv.buckets_eq_replicate [DecidableEq K] {m : unordered_map K V} (hm : Inv m)
    (h : ∀ k, m.count k = some 0) : m.buckets = List.replicate m.buckets.length [] := by
  apply List.ext_getElem (by simp)
  intro i h1 h2
  rw [List.getElem_replicate]
  cases hb : m.buckets[i] with
  | nil => rfl
  | cons e rest =>
    exfalso
    have hmem : e.1 ∈ keys (m.bucket_at i) := by
      rw [bucket_at_eq_getElem m h1, hb]
      simp [keys]
    have hslot := hm.placed i e.1 hmem
    have hone : m.count e.1 = some 1 := by
      rw [count_eq_one_iff hm.pos, hslot]
      exact hmem
    rw [h e.1] at hone
    exact absurd hone (by decide)

theorem total_eq_zero_of_replicate {m : unordered_map K V}
    (h : m.buckets = List.replicate m.buckets.length []) : m.total = 0 := by
  rw [total, h]
  simp

/-- C11: pairs (with distinct keys or not) inserted into a map freshly constructed with
at least one bucket, followed by erases that name every inserted key, in any order and
any number of times: the run succeeds and leaves all `n` buckets empty, `empty()` true,
`size() = 0` and `count(k) = 0` for every key `k`. -/
theorem insert_erase_round_trip [DecidableEq K] [Inhabited V] (n : Nat) (h : K → Nat)
    (kvs : List (K × V)) (es : List K) (hn : 0 < n) (hcover : ∀ kv ∈ kvs, kv.1 ∈ es) :
    ∃ m, run (ctor n h) (kvs.map Op.insert ++ es.map Op.erase) = some m
      ∧ m.buckets = List.replicate n []
      ∧ m.empty = true ∧ m.size = 0 ∧ ∀ k, m.count k = some 0 := by
  obtain ⟨m1, h1, hinv1, _, hlen1, _⟩ := run_inv (ctor_inv (V := V) hn h) (kvs.map Op.insert)
  obtain ⟨m2, h2, hinv2, hc2⟩ := run_erases hinv1 es
  obtain ⟨_, _, _, _, hlen2, _⟩ := run_inv hinv1 (es.map (Op.erase (V := V)))
  have hzero : ∀ k, m2.count k = some 0 := by
    intro k
    rw [hc2 k]
    by_cases hk : k ∈ es
    · rw [if_pos hk]
    · rw [if_neg hk]
      have hun : ∀ op ∈ kvs.map (Op.insert (K := K) (V := V)), k ≠ op.key := by
        intro op hop
        obtain ⟨kv, hkv, rfl⟩ := List.mem_map.1 hop
        exact fun heq => hk (heq ▸ hcover kv hkv)
      rw [(run_unmentioned_key (ctor_inv hn h) h1 hun).1]
      exact count_ctor hn h k
  have hrep := hinv2.buckets_eq_replicate hzero
  have htot := total_eq_zero_of_replicate hrep
  have hnum : m2.num_elements = 0 := by
    rw [hinv2.counted, htot]
    rfl
  have hlen : m2.buckets.length = n := by
    obtain ⟨m3, h3, _, _, hlen3, _⟩ := run_inv hinv1 (es.map (Op.erase (V := V)))
    rw [h2] at h3
    cases h3
    rw [hlen3, hlen1]
    simp [ctor]
  refine ⟨m2, ?_, ?_, ?_, hnum, hzero⟩
  · rw [run_append, h1]
    exact h2
  · rw [hrep, hlen]
  · simp [empty, hnum]

theorem insert_erase_round_trip_witness :
    0 < 4 ∧ (∀ kv ∈ round_trip_items, kv.1 ∈ round_trip_erases)
      ∧ (run (ctor 4 mod4) (round_trip_items.map Op.insert ++ round_trip_erases.map Op.erase)).map
          (fun m => (m.buckets, m.size, m.empty, m.count 6, m.count 2, m.count 11))
          = some ([[], [], [], []], 0, true, some 0, some 0, some 0)
      ∧ ∃ m, run (ctor 4 mod4) (round_trip_items.map Op.insert ++ round_trip_erases.map Op.erase)
            = some m
          ∧ m.buckets = List.replicate 4 []
          ∧ m.empty = true ∧ m.size = 0 ∧ ∀ k, m.count k = some 0 :=
  ⟨by decide, by decide, rfl,
    insert_erase_round_trip 4 mod4 round_trip_items round_trip_erases (by decide) (by decide)⟩

/-- C12: on a map with at least one bucket `count(k)` is defined and is 1 or 0, never
another number; it is 1 exactly when bucket `hash(k) mod num_buckets` holds an entry with
key `k` and 0 exactly when it holds none. `find(k)` is defined, returns an iterator of
that bucket, and the iterator differs from `end()` in exactly the same case, where it
points at an entry with key `k`. -/
theorem count_and_find_report_presence [DecidableEq K] (m : unordered_map K V) (k : K)
    (hpos : 0 < m.buckets.length) :
    (m.count k = some 1 ∨ m.count k = some 0)
      ∧ (m.count k = some 1 ↔ ∃ v, (k, v) ∈ m.bucket_at (m.hash k % m.buckets.length))
      ∧ (m.count k = some 0 ↔ ¬ ∃ v, (k, v) ∈ m.bucket_at (m.hash k % m.buckets.length))
      ∧ ∃ it, m.find k = some it ∧ it.bucket = m.hash k % m.buckets.length
          ∧ (it ≠ m.end_of (m.hash k % m.buckets.length)
              ↔ ∃ v, (k, v) ∈ m.bucket_at (m.hash k % m.buckets.length))
          ∧ (it = m.end_of (m.hash k % m.buckets.length) ↔ m.count k = some 0)
          ∧ (it ≠ m.end_of (m.hash k % m.buckets.length) → ∃ v, m.entry_at it = some (k, v)) := by
  have h1 := count_eq_one_iff hpos k
  have h0 := count_eq_zero_iff hpos k
  have hend := iterator_eq_end_iff m (m.hash k % m.buckets.length) k
  refine ⟨?_, ?_, ?_, _, find_bucket_eq hpos k, rfl, ?_, ?_, ?_⟩
  · by_cases hk : k ∈ keys (m.bucket_at (m.hash k % m.buckets.length))
    · exact Or.inl (h1.2 hk)
    · exact Or.inr (h0.2 hk)
  · rw [h1, mem_keys_iff]
  · rw [h0, mem_keys_iff]
  · rw [← mem_keys_iff, Ne, hend, not_not]
  · rw [hend, h0]
  · intro hne
    rw [Ne, hend, not_not] at hne
    exact fst_getElem_scan hne

theorem count_and_find_report_presence_witness :
    0 < scenario_map.buckets.length
      ∧ scenario_map.count 5 = some 1 ∧ scenario_map.find 5 = some ⟨1, 1⟩
      ∧ scenario_map.count 13 = some 0 ∧ scenario_map.find 13 = some (scenario_map.end_of 1)
      ∧ ((scenario_map.count 5 = some 1 ∨ scenario_map.count 5 = some 0)
      ∧ (scenario_map.count 5 = some 1
          ↔ ∃ v, (5, v) ∈ scenario_map.bucket_at (scenario_map.hash 5 % scenario_map.buckets.length))
      ∧ (scenario_map.count 5 = some 0
          ↔ ¬ ∃ v, (5, v) ∈ scenario_map.bucket_at (scenario_map.hash 5 % scenario_map.buckets.length))
      ∧ ∃ it, scenario_map.find 5 = some it
          ∧ it.bucket = scenario_map.hash 5 % scenario_map.buckets.length
          ∧ (it ≠ scenario_map.end_of (scenario_map.hash 5 % scenario_map.buckets.length)
              ↔ ∃ v, (5, v) ∈ scenario_map.bucket_at
                  (scenario_map.hash 5 % scenario_map.buckets.length))
          ∧ (it = scenario_map.end_of (scenario_map.hash 5 % scenario_map.buckets.length)
              ↔ scenario_map.count 5 = some 0)
          ∧ (it ≠ scenario_map.end_of (scenario_map.hash 5 % scenario_map.buckets.length)
              → ∃ v, scenario_map.entry_at it = some (5, v))) :=
  ⟨by decide, by decide, by decide, by decide, by decide,
    count_and_find_report_presence scenario_map 5 (by decide)⟩

end SeparateChaining

/-! ## The entries a call leaves alone -/

namespace SeparateChaining

open unordered_map

variable {K V : Type}

theorem Inv.mem_bucket_at {m : unordered_map K V} (hm : Inv m) {i : Nat} {e : K × V}
    (he : e ∈ m.bucket_at i) : i = m.hash e.1 % m.buckets.length ∧ i < m.buckets.length := by
  have hslot := hm.placed i e.1 (List.mem_map_of_mem Prod.fst he)
  have hlt := Nat.mod_lt (m.hash e.1) hm.pos
  exact ⟨hslot.symm, by omega⟩

theorem step_none_of_no_bucket [DecidableEq K] [Inhabited V] {m : unordered_map K V}
    (h : m.buckets.length = 0) (op : Op K V) : step m op = none := by
  cases op <;>
    simp [step, operator_subscript, unordered_map.insert, erase, find_bucket, bucket_index, h]

theorem run_of_no_bucket [DecidableEq K] [Inhabited V] {m m1 : unordered_map K V}
    (h : m.buckets.length = 0) {ops : List (Op K V)} (hrun : run m ops = some m1) :
    m1 = m := by
  cases ops with
  | nil =>
    simp only [run, Option.some.injEq] at hrun
    exact hrun.symm
  | cons op rest => simp [run, step_none_of_no_bucket h op] at hrun

/-- C14: in every state reachable from a map constructed with at least one bucket by
`operator[]`, `insert` and `erase`, an entry stored in bucket `i` has
`i = hash(key) mod num_buckets`; so every stored entry is found in the bucket its hash
selects and in no bucket with another index. -/
theorem entries_sit_in_their_hash_bucket [DecidableEq K] [Inhabited V]
    (m : unordered_map K V) (hreach : Reachable m) :
    (∀ i e, e ∈ m.bucket_at i → i = m.hash e.1 % m.buckets.length ∧ i < m.buckets.length)
      ∧ (∀ e ∈ m.buckets.flatten, e ∈ m.bucket_at (m.hash e.1 % m.buckets.length))
      ∧ ∀ i e, e ∈ m.bucket_at i → i ≠ m.hash e.1 % m.buckets.length → False := by
  have hm := hreach.inv
  refine ⟨fun i e he => hm.mem_bucket_at he, ?_, fun i e he hne => hne (hm.mem_bucket_at he).1⟩
  intro e he
  obtain ⟨b, hb, heb⟩ := List.mem_flatten.1 he
  obtain ⟨i, hi, rfl⟩ := List.mem_iff_getElem.1 hb
  rw [← bucket_at_eq_getElem m hi] at heb
  rw [← (hm.mem_bucket_at heb).1]
  exact heb

theorem entries_sit_in_their_hash_bucket_witness :
    Reachable scenario_map
      ∧ scenario_map.buckets = [[], [(1, 10), (5, 50), (9, 90)], [], []]
      ∧ scenario_map.hash 1 % 4 = 1 ∧ scenario_map.hash 5 % 4 = 1 ∧ scenario_map.hash 9 % 4 = 1
      ∧ ((∀ i e, e ∈ scenario_map.bucket_at i →
            i = scenario_map.hash e.1 % scenario_map.buckets.length
              ∧ i < scenario_map.buckets.length)
        ∧ (∀ e ∈ scenario_map.buckets.flatten,
            e ∈ scenario_map.bucket_at (scenario_map.hash e.1 % scenario_map.buckets.length))
        ∧ ∀ i e, e ∈ scenario_map.bucket_at i →
            i ≠ scenario_map.hash e.1 % scenario_map.buckets.length → False) :=
  ⟨scenario_map_reachable, rfl, by decide, by decide, by decide,
    entries_sit_in_their_hash_bucket scenario_map scenario_map_reachable⟩

/-- C15: in every state a sequence of `operator[]`, `insert` and `erase` calls produces
from a constructed map (any bucket count), no bucket holds two entries with equal keys,
and no key occurs twice in the whole map. -/
theorem no_key_stored_twice [DecidableEq K] [Inhabited V] (n : Nat) (h : K → Nat)
    (ops : List (Op K V)) (m : unordered_map K V) (hrun : run (ctor n h) ops = some m) :
    (∀ b ∈ m.buckets, (keys b).Nodup) ∧ (∀ i, (keys (m.bucket_at i)).Nodup)
      ∧ (m.buckets.flatten.map Prod.fst).Nodup := by
  rcases Nat.eq_zero_or_pos n with h0 | hpos
  · subst h0
    have hm : m = ctor 0 h := run_of_no_bucket (by simp [ctor]) hrun
    subst hm
    simp [ctor, bucket_at, keys]
  · have hm : Inv m := Reachable.inv ⟨n, h, ops, hpos, hrun⟩
    refine ⟨?_, hm.nodup, hm.nodup_stored⟩
    intro b hb
    obtain ⟨i, hi, rfl⟩ := List.mem_iff_getElem.1 hb
    rw [← bucket_at_eq_getElem m hi]
    exact hm.nodup i

theorem no_key_stored_twice_witness :
    run (ctor 4 mod4) mixed_ops = some mixed_map
      ∧ mixed_map.buckets = [[], [(1, 11), (9, 0)], [(2, 0)], []]
      ∧ ((∀ b ∈ mixed_map.buckets, (keys b).Nodup) ∧ (∀ i, (keys (mixed_map.bucket_at i)).Nodup)
        ∧ (mixed_map.buckets.flatten.map Prod.fst).Nodup) :=
  ⟨rfl, rfl, no_key_stored_twice 4 mod4 mixed_ops mixed_map rfl⟩

end SeparateChaining

/-! ## The counter with `clear()`, the ordered variant, index safety -/

namespace SeparateChaining

open unordered_map

variable {K V : Type}

theorem step_call_counted [DecidableEq K] [Inhabited V] {m m1 : unordered_map K V}
    (hm : Inv m ∨ (m.buckets = [] ∧ m.num_elements = 0)) {c : Call K V}
    (h : step_call m c = some m1) :
    (Inv m1 ∨ (m1.buckets = [] ∧ m1.num_elements = 0)) ∧ m1.total ≤ m.total + 1 := by
  cases c with
  | op o =>
    have h1 : step m o = some m1 := h
    rcases hm with hm | hm
    · exact ⟨Or.inl (step_inv hm h1), step_total_le hm.pos h1⟩
    · rw [step_none_of_no_bucket (by simp [hm.1]) o] at h1
      cases h1
  | clear =>
    simp only [step_call, Option.some.injEq] at h
    subst h
    exact ⟨Or.inr ⟨rfl, rfl⟩, by simp [clear, total]⟩

theorem run_calls_counted [DecidableEq K] [Inhabited V] {m m1 : unordered_map K V}
    (hm : Inv m ∨ (m.buckets = [] ∧ m.num_elements = 0)) {calls : List (Call K V)}
    (h : run_calls m calls = some m1) :
    (Inv m1 ∨ (m1.buckets = [] ∧ m1.num_elements = 0)) ∧ m1.total ≤ m.total + calls.length := by
  induction calls generalizing m with
  | nil =>
    simp only [run_calls, Option.some.injEq] at h
    subst h
    exact ⟨hm, by simp⟩
  | cons c rest ih =>
    cases hs : step_call m c with
    | none => simp [run_calls, hs] at h
    | some m2 =>
      simp only [run_calls, hs, Option.some_bind] at h
      obtain ⟨hm2, ht2⟩ := step_call_counted hm hs
      obtain ⟨hm1, ht1⟩ := ih hm2 h
      refine ⟨hm1, ?_⟩
      simp only [List.length_cons]
      omega

theorem ctor_counted (n : Nat) (h : K → Nat) :
    Inv (ctor n h : unordered_map K V)
      ∨ ((ctor n h : unordered_map K V).buckets = []
          ∧ (ctor n h : unordered_map K V).num_elements = 0) := by
  rcases Nat.eq_zero_or_pos n with h0 | hpos
  · subst h0
    exact Or.inr ⟨rfl, rfl⟩
  · exact Or.inl (ctor_inv hpos h)

/-- C16: in every state a sequence of `operator[]`, `insert`, `erase` and `clear` calls
(fewer than `2^64` of them) produces from a constructed map, `size()`, the value of
`num_elements`, is the sum of the lengths of all buckets. -/
theorem counter_eq_sum_of_bucket_sizes [DecidableEq K] [Inhabited V] (n : Nat) (h : K → Nat)
    (calls : List (Call K V)) (m : unordered_map K V)
    (hrun : run_calls (ctor n h) calls = some m) (hfit : calls.length < SIZE_T_MOD) :
    m.size = (m.buckets.map List.length).sum ∧ m.num_elements = m.total := by
  obtain ⟨hm, htot⟩ := run_calls_counted (ctor_counted n h) hrun
  rw [total_ctor] at htot
  have key : m.num_elements = m.total := by
    rcases hm with hm | hm
    · rw [hm.counted]
      exact Nat.mod_eq_of_lt (by omega)
    · rw [hm.2, total, hm.1]
      rfl
  exact ⟨key, key⟩

theorem counter_eq_sum_of_bucket_sizes_witness :
    run_calls (ctor 4 mod4) calls_with_clear = some scenario_map.clear
      ∧ run_calls (ctor 4 mod4) (calls_with_clear.take 4) = some
          { buckets := [[], [(1, 10), (9, 0)], [], []], hash := mod4, num_elements := 2 }
      ∧ calls_with_clear.length < SIZE_T_MOD
      ∧ (scenario_map.clear.size = (scenario_map.clear.buckets.map List.length).sum
          ∧ scenario_map.clear.num_elements = scenario_map.clear.total) :=
  ⟨rfl, rfl, by decide,
    counter_eq_sum_of_bucket_sizes 4 mod4 calls_with_clear scenario_map.clear rfl (by decide)⟩

end SeparateChaining

namespace RedBlack

open unordered_map

theorem std_map_erase_absent {K V : Type} [DecidableEq K] (s : std_map K V) (key : K)
    (h : s.count key = 0) : s.erase key = s := by
  have hmem : key ∉ s.map Prod.fst := by
    intro hk
    simp [std_map.count, hk] at h
  rw [std_map.erase, List.filter_eq_self]
  intro e he
  simp only [decide_eq_true_eq]
  exact fun heq => hmem (heq ▸ List.mem_map_of_mem Prod.fst he)

/-- C17: in the ordered variant `erase(k)` decrements the counter whether `k` is stored
or not. For every state `size()` after `erase(k)` is the decrement of `size()` before,
and for an absent `k` the stored contents stay as they were. On the map holding the one
entry `(1, 10)` with `size() = 1`, `erase(2)` leaves that entry and gives `size() = 0`,
which is not the number of stored entries; on the fresh map, whose counter is 0,
`erase(7)` gives `size() = 2^64 - 1` with nothing stored. -/
theorem ordered_erase_decrements_unconditionally {K V : Type} [DecidableEq K] :
    (∀ (m : unordered_map K V) (k : K),
        (m.erase k).size = SeparateChaining.size_t_dec m.size
          ∧ (m.count k = 0 → (m.erase k).map = m.map))
      ∧ (one_entry_map.count 2 = 0 ∧ one_entry_map.map = [(1, 10)] ∧ one_entry_map.size = 1
          ∧ (one_entry_map.erase 2).map = one_entry_map.map
          ∧ (one_entry_map.erase 2).size = 0
          ∧ (one_entry_map.erase 2).size ≠ (one_entry_map.erase 2).map.length)
      ∧ ((ctor : unordered_map Nat Int).count 7 = 0
          ∧ (ctor : unordered_map Nat Int).size = 0
          ∧ ((ctor : unordered_map Nat Int).erase 7).map = []
          ∧ ((ctor : unordered_map Nat Int).erase 7).size = 18446744073709551615) := by
  refine ⟨fun m k => ⟨rfl, fun h => std_map_erase_absent m.map k h⟩, ?_, ?_⟩
  · decide
  · decide

end RedBlack

/-! ## Refinement of an abstract map -/

namespace SeparateChaining

open unordered_map

variable {K V : Type}

theorem lookup_eq_some_iff_mem [DecidableEq K] {b : Bucket K V} (hnd : (keys b).Nodup)
    (k : K) (v : V) : lookup k b = some v ↔ (k, v) ∈ b := by
  induction b with
  | nil => simp [lookup, scan]
  | cons e rest ih =>
    obtain ⟨ek, ev⟩ := e
    have hnd1 : (keys rest).Nodup := by
      simp only [keys, List.map_cons, List.nodup_cons] at hnd ⊢
      exact hnd.2
    have hnot : ek ∉ keys rest := by
      simp only [keys, List.map_cons, List.nodup_cons] at hnd ⊢
      exact hnd.1
    by_cases hk : ek = k
    · subst hk
      have hrest : ∀ w, (ek, w) ∉ rest := fun w hw => hnot (mem_keys_iff.2 ⟨w, hw⟩)
      simp only [lookup, scan, if_true, List.getElem?_cons_zero, Option.map_some',
        Option.some.injEq, List.mem_cons, Prod.mk.injEq, true_and]
      constructor
      · exact fun h => Or.inl h.symm
      · rintro (h | h)
        · exact h.symm
        · exact absurd h (hrest v)
    · have ih1 := ih hnd1
      simp only [lookup] at ih1
      simp only [lookup, scan, if_neg hk, List.getElem?_cons_succ, List.mem_cons, Prod.mk.injEq]
      rw [ih1]
      constructor
      · exact fun h => Or.inr h
      · rintro (h | h)
        · exact absurd h.1.symm hk
        · exact h

theorem Inv.abstraction_eq_some_iff [DecidableEq K] {m : unordered_map K V} (hm : Inv m)
    (k : K) (v : V) : abstraction m k = some v ↔ (k, v) ∈ m.buckets.flatten := by
  have hi := bucket_index_lt hm.pos k
  rw [abstraction, find_value_eq hm.pos, lookup_eq_some_iff_mem (hm.nodup _)]
  constructor
  · intro h
    rw [bucket_at_eq_getElem m hi] at h
    exact List.mem_flatten.2 ⟨_, List.getElem_mem hi, h⟩
  · intro h
    obtain ⟨b, hb, hkb⟩ := List.mem_flatten.1 h
    obtain ⟨i, hib, rfl⟩ := List.mem_iff_getElem.1 hb
    rw [← bucket_at_eq_getElem m hib] at hkb
    have := (hm.mem_bucket_at hkb).1
    rw [← this]
    exact hkb

theorem count_of_abstraction [DecidableEq K] {m : unordered_map K V}
    (hpos : 0 < m.buckets.length) (k : K) :
    m.count k = some (if (abstraction m k).isSome then 1 else 0) := by
  have hnone := find_value_eq_none_iff hpos k
  by_cases hc : m.count k = some 0
  · have hv : abstraction m k = none := hnone.2 hc
    rw [hv, hc]
    rfl
  · have hv : abstraction m k ≠ none := fun hv => hc (hnone.1 hv)
    have hs : (abstraction m k).isSome = true := Option.isSome_iff_ne_none.2 hv
    rw [hs, if_pos rfl, count_eq hpos]
    by_cases hk : k ∈ keys (m.bucket_at (m.hash k % m.buckets.length))
    · rw [if_pos hk]
    · exact absurd ((count_eq_zero_iff hpos k).2 hk) hc

theorem abstraction_step [DecidableEq K] [Inhabited V] {m m1 : unordered_map K V}
    (hm : Inv m) {op : Op K V} (h : step m op = some m1) :
    abstraction m1 = abstract_step (abstraction m) op := by
  funext k
  cases op with
  | subscript key =>
    rw [step_subscript_eq hm.pos] at h
    have hc := count_of_abstraction hm.pos key
    simp only [abstract_step, abstract_lookup_default]
    split at h
    · rename_i h1
      cases h
      have hs : (abstraction m key).isSome = true := by
        by_cases hs : (abstraction m key).isSome = true
        · exact hs
        · rw [hc, if_neg hs] at h1
          exact absurd h1 (by decide)
      rw [if_pos hs]
    · rename_i h1
      have hs : ¬ (abstraction m key).isSome = true := by
        intro hs
        rw [hc, if_pos hs] at h1
        exact h1 rfl
      rw [if_neg hs]
      simp only [abstraction, abstract_update]
      exact find_value_insert hm.pos h k
  | insert item =>
    have h1 : m.insert item = some m1 := h
    simp only [abstract_step, abstraction, abstract_update]
    exact find_value_insert hm.pos h1 k
  | erase key =>
    have h1 : m.erase key = some m1 := h
    have hm1 := erase_inv hm h1
    simp only [abstract_step, abstraction, abstract_remove]
    by_cases hk : k = key
    · subst hk
      rw [if_pos rfl, find_value_eq_none_iff hm1.pos, count_erase hm h1, if_pos rfl]
    · rw [if_neg hk]
      exact find_value_erase hm.pos h1 hk

theorem abstraction_run [DecidableEq K] [Inhabited V] {m m1 : unordered_map K V}
    (hm : Inv m) {ops : List (Op K V)} (h : run m ops = some m1) :
    abstraction m1 = abstract_run (abstraction m) ops := by
  induction ops generalizing m with
  | nil =>
    simp only [run, Option.some.injEq] at h
    subst h
    rfl
  | cons op rest ih =>
    obtain ⟨m2, h2⟩ := step_defined hm.pos op
    simp only [run, h2, Option.some_bind] at h
    rw [ih (step_inv hm h2) h, abstraction_step hm h2]
    rfl

theorem abstraction_ctor [DecidableEq K] {n : Nat} (hn : 0 < n) (h : K → Nat) :
    abstraction (ctor n h : unordered_map K V) = abstract_empty := by
  funext k
  have hinv : Inv (ctor n h : unordered_map K V) := ctor_inv hn h
  simp only [abstraction, abstract_empty]
  rw [find_value_eq_none_iff hinv.pos]
  exact count_ctor hn h k

theorem size_eq_of_same_counts [DecidableEq K] {m1 m2 : unordered_map K V} (hm1 : Inv m1)
    (hm2 : Inv m2) (h : ∀ k, m1.count k = m2.count k) : m1.size = m2.size := by
  have hperm : m1.live_keys.Perm m2.live_keys := by
    rw [List.perm_ext_iff_of_nodup (nodup_live_keys m1) (nodup_live_keys m2)]
    intro k
    rw [mem_live_keys_iff, mem_live_keys_iff, h k]
  have hlen := hperm.length_eq
  rw [hm1.length_live_keys, hm2.length_live_keys] at hlen
  rw [size, size, hm1.counted, hm2.counted, hlen]

/-- C19: for any two bucket counts `n1, n2 ≥ 1` and any two hash functions, a sequence of
`operator[]`, `insert` and `erase` calls runs on both maps, and on each the abstraction
(`k` bound to `v` iff `find(k)` reads `v`, iff `(k, v)` is stored) is the abstract map
the same calls build from the empty one, with `insert` as abstract update, `erase` as
abstract removal and `operator[]` as abstract lookup with default insert; one further
call commutes with the abstraction in the same way. Hence `count(k)`, the value `find(k)`
reads and `size()` agree on the two maps. -/
theorem refines_abstract_map [DecidableEq K] [Inhabited V] (n1 n2 : Nat) (h1 h2 : K → Nat)
    (ops : List (Op K V)) (hn1 : 0 < n1) (hn2 : 0 < n2) :
    ∃ m1 m2, run (ctor n1 h1) ops = some m1 ∧ run (ctor n2 h2) ops = some m2
      ∧ abstraction m1 = abstract_run abstract_empty ops
      ∧ abstraction m2 = abstract_run abstract_empty ops
      ∧ (∀ k v, abstraction m1 k = some v ↔ (k, v) ∈ m1.buckets.flatten)
      ∧ (∀ op, ∃ m3, step m1 op = some m3
          ∧ abstraction m3 = abstract_step (abstraction m1) op)
      ∧ (∀ k, m1.count k = m2.count k ∧ m1.find_value k = m2.find_value k
          ∧ m1.count k = some (if (abstract_run abstract_empty ops k).isSome then 1 else 0))
      ∧ m1.size = m2.size := by
  obtain ⟨m1, hr1, hinv1, _⟩ := run_inv (ctor_inv (V := V) hn1 h1) ops
  obtain ⟨m2, hr2, hinv2, _⟩ := run_inv (ctor_inv (V := V) hn2 h2) ops
  have ha1 : abstraction m1 = abstract_run abstract_empty ops := by
    rw [abstraction_run (ctor_inv hn1 h1) hr1, abstraction_ctor hn1]
  have ha2 : abstraction m2 = abstract_run abstract_empty ops := by
    rw [abstraction_run (ctor_inv hn2 h2) hr2, abstraction_ctor hn2]
  have hcount : ∀ k, m1.count k = m2.count k := by
    intro k
    rw [count_of_abstraction hinv1.pos, count_of_abstraction hinv2.pos, ha1, ha2]
  refine ⟨m1, m2, hr1, hr2, ha1, ha2, hinv1.abstraction_eq_some_iff, ?_, ?_,
    size_eq_of_same_counts hinv1 hinv2 hcount⟩
  · intro op
    obtain ⟨m3, h3⟩ := step_defined hinv1.pos op
    exact ⟨m3, h3, abstraction_step hinv1 h3⟩
  · intro k
    refine ⟨hcount k, ?_, ?_⟩
    · have e1 := congrFun ha1 k
      have e2 := congrFun ha2 k
      simp only [abstraction] at e1 e2
      rw [e1, e2]
    · rw [count_of_abstraction hinv1.pos, ha1]

theorem refines_abstract_map_witness :
    0 < 4 ∧ 0 < 3
      ∧ (run (ctor 4 mod4) mixed_ops).map (fun m => (m.buckets, m.size))
          = some ([[], [(1, 11), (9, 0)], [(2, 0)], []], 3)
      ∧ (run (ctor 3 constant_hash) mixed_ops).map (fun m => (m.buckets, m.size))
          = some ([[(1, 11), (9, 0), (2, 0)], [], []], 3)
      ∧ ∃ m1 m2, run (ctor 4 mod4) mixed_ops = some m1
          ∧ run (ctor 3 constant_hash) mixed_ops = some m2
          ∧ abstraction m1 = abstract_run abstract_empty mixed_ops
          ∧ abstraction m2 = abstract_run abstract_empty mixed_ops
          ∧ (∀ k v, abstraction m1 k = some v ↔ (k, v) ∈ m1.buckets.flatten)
          ∧ (∀ op, ∃ m3, step m1 op = some m3
              ∧ abstraction m3 = abstract_step (abstraction m1) op)
          ∧ (∀ k, m1.count k = m2.count k ∧ m1.find_value k = m2.find_value k
              ∧ m1.count k
                  = some (if (abstract_run abstract_empty mixed_ops k).isSome then 1 else 0))
          ∧ m1.size = m2.size :=
  ⟨by decide, by decide, rfl, rfl,
    refines_abstract_map 4 3 mod4 constant_hash mixed_ops (by decide) (by decide)⟩

end SeparateChaining

/-! ## Assignment through `operator[]` -/

namespace SeparateChaining

open unordered_map

variable {K V : Type}

end SeparateChaining
